import Mathlib

/-!
Verification development for the OCR label-processing repository.

The Lean definitions below are shallow embeddings of the Python sources:
  * `src/src/utils/text_cleaner.py`   (clean_ocr_text)
  * `src/src/utils/fuzzy_matcher.py`  (RecipientMatcher)
  * `src/src/ocr_pipeline.py`         (OCRPipeline.process_single_label)
  * `src/src/extractors/rule_extractor.py` (extract_name_address_rule_based)
plus a spec-modelled tracking-number extractor (spec section 4.2, no source
file present).

Strings are manipulated as `List Char`; Python floats are modelled as exact
rationals (`ℚ`).  rapidfuzz `fuzz.ratio` is the normalized InDel similarity
`200 * lcs(a, b) / (|a| + |b|)`, and `fuzz.token_sort_ratio` applies it to
the whitespace tokens sorted lexicographically and re-joined by a space.
Python's `round(x, 2)` is modelled as `⌊100 x + 1/2⌋ / 100` (binary-float
tie-breaking at exact half-cent values is not modelled).
-/

set_option maxRecDepth 10000

attribute [local semireducible] Rat.mul Rat.add Rat.sub Rat.inv

namespace OCR

/-- Characters removed by Python `str.strip()` on the ASCII-plus-newline/tab
strings that occur after cleaning. -/
def isPySpace (c : Char) : Bool :=
  c == ' ' || c == '\t' || c == '\n' || c == '\r' || c == '\x0b' || c == '\x0c'

/-- Python `str.strip()` over a character list. -/
def pstripL (l : List Char) : List Char :=
  ((l.dropWhile isPySpace).reverse.dropWhile isPySpace).reverse

/-- Python `str.strip()`. -/
def pstrip (s : String) : String := ⟨pstripL s.data⟩

/-- Python `str.lower()` (inputs here are ASCII). -/
def lowerStr (s : String) : String := ⟨s.data.map Char.toLower⟩

/-- Python `str.split()` with no argument: split on whitespace runs,
dropping empty tokens. -/
def splitWsAux : List Char → List Char → List String
  | [], acc => if acc.isEmpty then [] else [⟨acc.reverse⟩]
  | c :: rest, acc =>
    if isPySpace c then
      if acc.isEmpty then splitWsAux rest [] else ⟨acc.reverse⟩ :: splitWsAux rest []
    else splitWsAux rest (c :: acc)

/-- Python `str.split()`. -/
def splitWs (s : String) : List String := splitWsAux s.data []

/-- Length of a longest common subsequence, fuel-guided so that the
recursion is structural (every step consumes at least one character, so
`|xs| + |ys|` fuel always suffices and `lcsF` computes the true LCS length). -/
def lcsF : Nat → List Char → List Char → Nat
  | 0, _, _ => 0
  | _ + 1, [], _ => 0
  | _ + 1, _ :: _, [] => 0
  | f + 1, a :: as, b :: bs =>
    if a = b then lcsF f as bs + 1
    else max (lcsF f (a :: as) bs) (lcsF f as (b :: bs))

/-- Length of a longest common subsequence of two character lists. -/
def lcs (xs ys : List Char) : Nat := lcsF (xs.length + ys.length) xs ys

/-- rapidfuzz `fuzz.ratio`: normalized InDel similarity in [0, 100].
The InDel distance of `a, b` is `|a| + |b| - 2 * lcs(a, b)`, so the
normalized similarity is `200 * lcs(a, b) / (|a| + |b|)`; two empty strings
score 100. -/
def fuzzRatio (a b : String) : ℚ :=
  let la := a.data.length
  let lb := b.data.length
  if la + lb = 0 then 100 else (200 * lcs a.data b.data : ℚ) / (la + lb)

/-- Lexicographic comparison of character lists (Python string `<=`). -/
def charListLe : List Char → List Char → Bool
  | [], _ => true
  | _ :: _, [] => false
  | a :: as, b :: bs => if a = b then charListLe as bs else decide (a < b)

/-- Python `sorted` on strings (lexicographic by code point). -/
def sortTokens (ts : List String) : List String :=
  List.insertionSort (fun s t => charListLe s.data t.data = true) ts

/-- rapidfuzz `fuzz.token_sort_ratio`: sort the whitespace-delimited tokens
of each string, re-join them with single spaces, and apply `fuzz.ratio`. -/
def tokenSortRatio (a b : String) : ℚ :=
  fuzzRatio (String.intercalate " " (sortTokens (splitWs a)))
    (String.intercalate " " (sortTokens (splitWs b)))

/-- Python `round(q, 2)` (round half up; see the header note on float ties). -/
def round2 (q : ℚ) : ℚ := (⌊q * 100 + 1/2⌋ : ℚ) / 100

/-- One row of the recipient directory (`recipient_database.csv` columns used
by `RecipientMatcher`). -/
structure Recipient where
  recipient_id : Nat
  first_name : String
  last_name : String
  preferred_first_name : String
  preferred_full_name : String
  address : String
  unit_number : String
  city : String
  state : String
  zip_code : String
deriving DecidableEq

instance : Inhabited Recipient := ⟨⟨0, "", "", "", "", "", "", "", "", ""⟩⟩

/-- The scoring fields of the match dictionary built by
`RecipientMatcher.match_pair` (the remaining keys are verbatim copies of the
directory row's string fields). -/
structure MatchCandidate where
  recipient_id : Nat
  name_match_score : ℚ
  address_match_score : ℚ
  combined_confidence : ℚ
  is_ambiguous : Bool
deriving DecidableEq

/-- Python `dict` assignment `m[k] = v`: overwrite the value in place if the
key is present (keeping its insertion position), else append. -/
def dictSet (m : List (String × Nat)) (k : String) (v : Nat) : List (String × Nat) :=
  if m.any (fun p => p.1 == k) then
    m.map (fun p => if p.1 == k then (k, v) else p)
  else m ++ [(k, v)]

/-- The sequence of `variations[key] = {...}` assignments performed for one
directory row by `RecipientMatcher._create_name_variations` (key, recipient
id), in program order. -/
def variationEntries (r : Recipient) : List (String × Nat) :=
  let first := pstrip r.first_name
  let last := pstrip r.last_name
  let prefFirst := pstrip r.preferred_first_name
  let prefFull := pstrip r.preferred_full_name
  (if first ≠ "" ∧ last ≠ "" then
      [(lowerStr (first ++ " " ++ last), r.recipient_id),
       (lowerStr (last ++ ", " ++ first), r.recipient_id)]
    else []) ++
  (if prefFirst ≠ "" ∧ last ≠ "" then
      [(lowerStr (prefFirst ++ " " ++ last), r.recipient_id)]
    else []) ++
  (if prefFull ≠ "" then [(lowerStr prefFull, r.recipient_id)] else [])

/-- Apply a sequence of dict assignments in order. -/
def applyEntries (m : List (String × Nat)) (es : List (String × Nat)) : List (String × Nat) :=
  es.foldl (fun acc kv => dictSet acc kv.1 kv.2) m

/-- `RecipientMatcher._create_name_variations`: the name-variation dict,
as an insertion-ordered association list. -/
def createNameVariations (db : List Recipient) : List (String × Nat) :=
  db.foldl (fun m r => applyEntries m (variationEntries r)) []

/-- Descending order on (recipient id, name score) pairs used by
`_fuzzy_match_name`'s `sort(key=..., reverse=True)`. -/
def scoreGe (a b : Nat × ℚ) : Prop := b.2 ≤ a.2

instance : DecidableRel scoreGe := fun a b => inferInstanceAs (Decidable (b.2 ≤ a.2))

instance : IsTotal (Nat × ℚ) scoreGe := ⟨fun a b => le_total b.2 a.2⟩

instance : IsTrans (Nat × ℚ) scoreGe := ⟨fun _ _ _ h₁ h₂ => le_trans h₂ h₁⟩

/-- `RecipientMatcher._fuzzy_match_name`: score the lowered, stripped input
name against every variation key, keep scores `≥ threshold`, sort by
descending score (Python's sort is stable). -/
def fuzzyMatchName (thr : Int) (inputName : String) (variations : List (String × Nat)) :
    List (Nat × ℚ) :=
  if inputName = "" ∨ variations = [] then []
  else
    let nameL := pstrip (lowerStr inputName)
    let ms := (variations.filter (fun kv => (thr : ℚ) ≤ fuzzRatio nameL kv.1)).map
      (fun kv => (kv.2, fuzzRatio nameL kv.1))
    List.insertionSort scoreGe ms

/-- The full address string `", ".join(...)` built by
`RecipientMatcher._fuzzy_match_address` from the truthy (nonempty) fields. -/
def recipientFullAddress (r : Recipient) : String :=
  String.intercalate ", "
    ((if r.address ≠ "" then [r.address] else []) ++
     (if r.unit_number ≠ "" then [r.unit_number] else []) ++
     (if r.city ≠ "" then [r.city] else []) ++
     (if r.state ≠ "" then [r.state] else []) ++
     (if r.zip_code ≠ "" then [r.zip_code] else []))

/-- `RecipientMatcher._fuzzy_match_address`: 0 for an empty input, else the
token-sort ratio of the lowered, stripped strings. -/
def fuzzyMatchAddress (inputAddress : String) (r : Recipient) : ℚ :=
  if inputAddress = "" then 0
  else tokenSortRatio (pstrip (lowerStr inputAddress)) (pstrip (lowerStr (recipientFullAddress r)))

/-- `recipient_db[recipient_db['recipient_id'] == recipient_id].iloc[0]`:
first directory row with the given id. -/
def dbLookup (db : List Recipient) (rid : Nat) : Recipient :=
  (db.find? (fun r => r.recipient_id == rid)).getD default

/-- Descending order on combined confidence used by `match_pair`'s final
`sort(key=..., reverse=True)`. -/
def confGe (a b : MatchCandidate) : Prop := b.combined_confidence ≤ a.combined_confidence

instance : DecidableRel confGe :=
  fun a b => inferInstanceAs (Decidable (b.combined_confidence ≤ a.combined_confidence))

instance : IsTotal MatchCandidate confGe :=
  ⟨fun a b => le_total b.combined_confidence a.combined_confidence⟩

instance : IsTrans MatchCandidate confGe := ⟨fun _ _ _ h₁ h₂ => le_trans h₂ h₁⟩

/-- The combined confidence computed by `match_pair` before rounding. -/
def combinedScore (ns addrScore : ℚ) : ℚ := ns * (6/10) + addrScore * (4/10)

/-- `RecipientMatcher.match_pair`: name-match against the variation dict,
address-score each surviving recipient, keep pairs whose combined score
clears the (shared) threshold, stamp every emitted candidate with
`is_ambiguous = (len(name_matches) > 1)`, and sort by descending rounded
combined confidence (stable). -/
def matchPair (db : List Recipient) (thr : Int) (inputName inputAddress : String) :
    List MatchCandidate :=
  let variations := createNameVariations db
  let nameMatches := fuzzyMatchName thr inputName variations
  let emitted := (nameMatches.filter (fun ns =>
      (thr : ℚ) ≤ combinedScore ns.2 (fuzzyMatchAddress inputAddress (dbLookup db ns.1)))).map
    (fun ns =>
      let addrScore := fuzzyMatchAddress inputAddress (dbLookup db ns.1)
      MatchCandidate.mk ns.1 ns.2 addrScore (round2 (combinedScore ns.2 addrScore))
        (decide (1 < nameMatches.length)))
  List.insertionSort confGe emitted

/-! ### Claim C1 -/

/-- Directory with a single recipient whose two name variations both clear
the threshold against the input name "ana ana". -/
def exDbAna : List Recipient := [⟨1, "Ana", "Ana", "", "", "x", "", "", "", ""⟩]

/-! ### Claim C2 -/

/-- Directory row producing a combined score `580/7` whose stored rounded
confidence `82.86` differs from the exact weighted sum. -/
def exDbC2 : List Recipient := [⟨1, "ab", "cd", "", "", "aa", "", "", "", ""⟩]

/-! ### Claim C8: output ordering -/

/-- Descending name-score order on candidates (the order in which
`match_pair` appends candidates, inherited from `_fuzzy_match_name`'s
sort). -/
def nsGe (x y : MatchCandidate) : Prop := y.name_match_score ≤ x.name_match_score

/-- The order actually realized by `match_pair`'s output: descending
combined confidence, and inside a confidence tie descending name score. -/
def lexBetter (x y : MatchCandidate) : Prop :=
  y.combined_confidence < x.combined_confidence ∨
    (y.combined_confidence = x.combined_confidence ∧ y.name_match_score ≤ x.name_match_score)

/-- Directory for the C8 counterexample: recipient 1 scores (name 80,
address 70), recipient 2 scores (name 100, address 40); both combine to
exactly 76. -/
def exDbC8 : List Recipient :=
  [⟨1, "a", "cd", "", "", "pppppppyyy", "", "", "", ""⟩,
   ⟨2, "ab", "cde", "", "", "pppqq", "", "", "", ""⟩]

/-- Recipients for the C9 witness. -/
def exR1 : Recipient := ⟨1, "John", "Smith", "", "", "1 A St", "", "", "", ""⟩

/-- Second (later) recipient for the C9 witness, same name, different
address. -/
def exR2 : Recipient := ⟨2, "John", "Smith", "", "", "2 B St", "", "", "", ""⟩

/-! ### Text cleaner: `clean_ocr_text` (`src/src/utils/text_cleaner.py`) -/

/-- Characters kept by `re.sub(r'[^\x20-\x7E\n\t]', '', text)`: printable
ASCII plus newline and tab. -/
def isAllowedChar (c : Char) : Bool :=
  (decide (0x20 ≤ c.toNat) && decide (c.toNat ≤ 0x7E)) || c == '\n' || c == '\t'

/-- `re.sub(r' +', ' ', ...)` and `re.sub(r'\n+', '\n', ...)`: collapse
every maximal run of the character `c` to a single `c`. -/
def squash (c : Char) : List Char → List Char
  | [] => []
  | [a] => [a]
  | a :: b :: rest =>
    if a = c ∧ b = c then squash c (b :: rest) else a :: squash c (b :: rest)

/-- Python `text.split('\n')`. -/
def splitNl : List Char → List (List Char)
  | [] => [[]]
  | c :: rest =>
    if c = '\n' then [] :: splitNl rest
    else
      match splitNl rest with
      | [] => [[c]]
      | l :: ls => (c :: l) :: ls

/-- Python `'\n'.join(...)`. -/
def joinNl : List (List Char) → List Char
  | [] => []
  | [l] => l
  | l :: ls => l ++ '\n' :: joinNl ls

/-- Lines 27-29 of `text_cleaner.py`:
`'\n'.join(line.strip() for line in text.split('\n'))`. -/
def stripLines (l : List Char) : List Char := joinNl ((splitNl l).map pstripL)

/-- Index of the last `'\n'` in a list, if any. -/
def lastNlIdx : List Char → Option Nat
  | [] => none
  | c :: rest =>
    match lastNlIdx rest with
    | some i => some (i + 1)
    | none => if c = '\n' then some 0 else none

/-- `re.sub(r'\n\s*\n', '\n', text)`, fuel-guided (fuel = input length
always suffices).  At each newline the regex greedily consumes following
whitespace and backtracks so that the match ends at the last newline of
that whitespace run; the whole match is replaced by a single newline and
scanning resumes after the replacement. -/
def subBlankF : Nat → List Char → List Char
  | 0, l => l
  | _ + 1, [] => []
  | f + 1, c :: rest =>
    if c = '\n' then
      match lastNlIdx (rest.takeWhile isPySpace) with
      | some i => '\n' :: subBlankF f (rest.drop (i + 1))
      | none => '\n' :: subBlankF f rest
    else c :: subBlankF f rest

/-- `re.sub(r'\n\s*\n', '\n', text)`. -/
def subBlank (l : List Char) : List Char := subBlankF l.length l

/-- Space or tab. -/
def isSpaceTab (c : Char) : Bool := c == ' ' || c == '\t'

/-- No two adjacent occurrences of the character `c`. -/
def noPair (c : Char) (a b : Char) : Prop := ¬(a = c ∧ b = c)

/-- No space/tab adjacent to a newline (stripped line edges). -/
def wsNlOk (a b : Char) : Prop :=
  ¬(a = '\n' ∧ isSpaceTab b = true) ∧ ¬(isSpaceTab a = true ∧ b = '\n')

/-- First character (if any) is not whitespace. -/
def headOk (l : List Char) : Prop := ∀ c ∈ l.head?, isPySpace c = false

/-- Last character (if any) is not whitespace. -/
def lastOk (l : List Char) : Prop := ∀ c ∈ l.getLast?, isPySpace c = false

/-- The normal form guaranteed by `clean_ocr_text`: only printable ASCII
plus newline/tab, single spaces, single newlines, no whitespace adjacent
to a newline (hence no blank lines), and no leading/trailing whitespace. -/
def cleanShape (l : List Char) : Prop :=
  (∀ x ∈ l, isAllowedChar x = true) ∧ List.Chain' (noPair ' ') l ∧
    List.Chain' (noPair '\n') l ∧ List.Chain' wsNlOk l ∧ headOk l ∧ lastOk l

/-- The character-level pipeline of `clean_ocr_text` on nonempty input:
filter non-printables, collapse space runs, collapse newline runs, strip
each line, drop blank lines, strip the ends. -/
def cleanData (l : List Char) : List Char :=
  pstripL (subBlank (stripLines (squash '\n' (squash ' ' (l.filter isAllowedChar)))))

/-- `clean_ocr_text` (`text_cleaner.py`): the falsy-input guard returns ""
and otherwise the six cleaning passes run in order. -/
def cleanOcrText (s : String) : String :=
  if s = "" then "" else ⟨cleanData s.data⟩

/-! ### Pipeline: `OCRPipeline.process_single_label` (`src/src/ocr_pipeline.py`) -/

/-- One extracted name/address pair (the `input_name` / `input_address`
keys of the dictionaries produced by the extractors). -/
structure Pair where
  input_name : String
  input_address : String
deriving DecidableEq

/-- The fields of the result dictionary built by `process_single_label`
that the claims concern (`sample_id` and `original_text` are verbatim
copies of the inputs, and the `extracted_name`/`extracted_address` keys
added to each match are copies of the pair's fields). -/
structure LabelResult where
  cleaned_text : String
  extracted_pairs : List Pair
  result_matches : List MatchCandidate
  status : String
  error_message : Option String

/-- `OCRPipeline.process_single_label`.  The LLM extractor performs an
HTTP call, so its outcome on the cleaned text is passed in as a function
returning `Except` (`Except.error` models
`extract_name_address_pairs` raising; the `try/except` at
`ocr_pipeline.py:79-92` catches it and reports status "error").  After a
normal extraction every pair is matched and the status is decided by the
`if`/`elif` chain at `ocr_pipeline.py:107-116`. -/
def processSingleLabel (ocrText : String) (extractor : String → Except String (List Pair))
    (db : List Recipient) (thr : Int) : LabelResult :=
  let cleaned := cleanOcrText ocrText
  if cleaned = "" then
    ⟨"", [], [], "error", some "Empty text after preprocessing"⟩
  else
    match extractor cleaned with
    | .error e => ⟨cleaned, [], [], "error", some e⟩
    | .ok pairs =>
      let allMatches := pairs.flatMap (fun p => matchPair db thr p.input_name p.input_address)
      let status :=
        if pairs.isEmpty then "no_pairs_extracted"
        else if allMatches.isEmpty then "no_matches"
        else if allMatches.any (fun m => decide (m.combined_confidence < 80)) then
          "low_confidence"
        else if allMatches.any (fun m => m.is_ambiguous) then "ambiguous"
        else "success"
      ⟨cleaned, pairs, allMatches, status, none⟩

/-! Tracking-number extractor (spec section 4.2). No implementation of this
component exists under src/, so the definitions below are modelled from the
spec text: three recognizers tried in priority order (USPS 20-22 digits
starting "94" with internal spaces allowed, UPS 1Z + 6 alphanumeric +
10 digits with spaces allowed and letters uppercased, then a maximal
12-14 digit run accepted only when a carrier/tracking keyword occurs in
the text), returning the first match. -/

/-- Modelled from the spec: digit-or-space class used by the USPS scan. -/
def digitSpace (c : Char) : Bool := c.isDigit || c == ' '

/-- Modelled from the spec: USPS scan. -/
def uspsScan : List Char → Option String
  | [] => none
  | c :: rest =>
      if c.isDigit then
        let ds := ((c :: rest).takeWhile digitSpace).filter Char.isDigit
        if 20 ≤ ds.length ∧ ds.length ≤ 22 ∧ ds.take 2 = ['9', '4'] then some (String.mk ds)
        else uspsScan rest
      else uspsScan rest

/-- Modelled from the spec: UPS body matcher. -/
def upsTake : List (Char → Bool) → List Char → Option (List Char × List Char)
  | [], l => some ([], l)
  | p :: ps, l =>
      match l.dropWhile (fun c => c == ' ') with
      | [] => none
      | c :: rest =>
          if p c then
            match upsTake ps rest with
            | none => none
            | some (body, rem) => some (c :: body, rem)
          else none

def upsPattern : List (Char → Bool) :=
  List.replicate 6 Char.isAlphanum ++ List.replicate 10 Char.isDigit

def upsTry (c z : Char) (rest : List Char) : Option String :=
  if c = '1' ∧ (z = 'Z' ∨ z = 'z') then
    match upsTake upsPattern rest with
    | some (body, _) => some (String.mk ('1' :: 'Z' :: body.map Char.toUpper))
    | none => none
  else none

def upsScan : List Char → Option String
  | [] => none
  | [_] => none
  | c :: z :: rest =>
      match upsTry c z rest with
      | some s => some s
      | none => upsScan (z :: rest)

def prevNotDigit : Option Char → Bool
  | none => true
  | some p => !p.isDigit

/-- Modelled from the spec: FedEx-style scan for a maximal 12-14 digit run. -/
def fedexScanAux : Option Char → List Char → Option String
  | _, [] => none
  | prev, c :: rest =>
      if c.isDigit && prevNotDigit prev then
        let run := (c :: rest).takeWhile Char.isDigit
        if 12 ≤ run.length ∧ run.length ≤ 14 then some (String.mk run)
        else fedexScanAux (some c) rest
      else fedexScanAux (some c) rest

def fedexScan (l : List Char) : Option String := fedexScanAux none l

def startsWithL : List Char → List Char → Bool
  | [], _ => true
  | _ :: _, [] => false
  | p :: ps, c :: cs => p == c && startsWithL ps cs

def containsSub (pat : List Char) : List Char → Bool
  | [] => startsWithL pat []
  | c :: cs => startsWithL pat (c :: cs) || containsSub pat cs

def trackingKeywords : List (List Char) :=
  ["usps".data, "ups".data, "fedex".data, "tracking".data, "carrier".data]

def hasTrackingKeyword (l : List Char) : Bool :=
  trackingKeywords.any (fun k => containsSub k l)

/-- Modelled from the spec: the tracking number extractor. -/
def extractTrackingNumber (t : String) : Option String :=
  match uspsScan t.data with
  | some n => some n
  | none =>
      match upsScan t.data with
      | some n => some n
      | none =>
          if hasTrackingKeyword (t.data.map Char.toLower) then fedexScan t.data
          else none

/-! ### Claim C4: `extract_name_address_rule_based`
(`src/src/extractors/rule_extractor.py`), embedded over a backtracking
regular-expression engine with Python `re` search semantics. -/

/-! ### A backtracking regular-expression engine (Python `re` semantics) -/

/-- Regular expressions as used by `rule_extractor.py`: character
predicates, concatenation, prioritized alternation, greedy star,
capture groups, negative lookahead, word boundary, and the
start-of-string anchor. -/
inductive RE where
  | eps
  | pred (p : Char → Bool)
  | seq (a b : RE)
  | alt (a b : RE)
  | star (a : RE)
  | group (i : Nat) (a : RE)
  | nla (a : RE)
  | wb
  | bos

/-- Group captures: (group index, start position, end position),
most recent first. -/
def Caps := List (Nat × Nat × Nat)

def capSet (i s e : Nat) (caps : Caps) : Caps := (i, s, e) :: caps

def capGet (i : Nat) : Caps → Option (Nat × Nat)
  | [] => none
  | (j, s, e) :: rest => if j = i then some (s, e) else capGet i rest

def isWordChar (c : Char) : Bool := c.isAlphanum || c == '_'

def isWordOpt : Option Char → Bool
  | none => false
  | some c => isWordChar c

def isWordHead : List Char → Bool
  | [] => false
  | c :: _ => isWordChar c

/-- The backtracking matcher, in continuation-passing style. The fuel
bounds the recursion depth; alternatives are tried left first and stars
are greedy, matching Python `re` backtracking order. `pos` is the
absolute position in the searched string, `prev` the character before
`pos` (for word boundaries), `s` the remaining characters. -/
def mrun : Nat → RE → Nat → Option Char → List Char → Caps →
    (Nat → Option Char → List Char → Caps → Option (Nat × Caps)) → Option (Nat × Caps)
  | 0, _, _, _, _, _, _ => none
  | _ + 1, RE.eps, pos, prev, s, caps, k => k pos prev s caps
  | _ + 1, RE.pred p, pos, _, s, caps, k =>
      match s with
      | [] => none
      | c :: rest => if p c then k (pos + 1) (some c) rest caps else none
  | fuel + 1, RE.seq a b, pos, prev, s, caps, k =>
      mrun fuel a pos prev s caps (fun pos2 prev2 s2 caps2 =>
        mrun fuel b pos2 prev2 s2 caps2 k)
  | fuel + 1, RE.alt a b, pos, prev, s, caps, k =>
      match mrun fuel a pos prev s caps k with
      | some r => some r
      | none => mrun fuel b pos prev s caps k
  | fuel + 1, RE.star a, pos, prev, s, caps, k =>
      match mrun fuel a pos prev s caps (fun pos2 prev2 s2 caps2 =>
          if pos < pos2 then mrun fuel (RE.star a) pos2 prev2 s2 caps2 k else none) with
      | some r => some r
      | none => k pos prev s caps
  | fuel + 1, RE.group i a, pos, prev, s, caps, k =>
      mrun fuel a pos prev s caps (fun pos2 prev2 s2 caps2 =>
        k pos2 prev2 s2 (capSet i pos pos2 caps2))
  | fuel + 1, RE.nla a, pos, prev, s, caps, k =>
      match mrun fuel a pos prev s caps (fun pos2 _ _ caps2 => some (pos2, caps2)) with
      | some _ => none
      | none => k pos prev s caps
  | _ + 1, RE.wb, pos, prev, s, caps, k =>
      if isWordOpt prev != isWordHead s then k pos prev s caps else none
  | _ + 1, RE.bos, pos, prev, s, caps, k =>
      if pos = 0 then k pos prev s caps else none

/-- Syntactic size of a pattern, used to compute a sufficient fuel. -/
def reSize : RE → Nat
  | RE.eps => 1
  | RE.pred _ => 1
  | RE.seq a b => reSize a + reSize b + 1
  | RE.alt a b => reSize a + reSize b + 1
  | RE.star a => reSize a + 1
  | RE.group _ a => reSize a + 1
  | RE.nla a => reSize a + 1
  | RE.wb => 1
  | RE.bos => 1

/-- Fuel sufficient for any backtracking path: every star iteration
consumes at least one character, so path depth is bounded by the
pattern size times the string length. -/
def engineFuel (re : RE) (n : Nat) : Nat := (reSize re + 2) * (n + 2) + 100

/-- A match: start and end position plus group captures. -/
structure RMatch where
  mstart : Nat
  mstop : Nat
  caps : Caps

def tryAt (re : RE) (fuel pos : Nat) (prev : Option Char) (s : List Char) :
    Option RMatch :=
  match mrun fuel re pos prev s [] (fun pos2 _ _ caps2 => some (pos2, caps2)) with
  | some (pos2, caps2) => some ⟨pos, pos2, caps2⟩
  | none => none

def searchAux (re : RE) (fuel : Nat) :
    Nat → Nat → Option Char → List Char → Option RMatch
  | 0, _, _, _ => none
  | fl + 1, pos, prev, s =>
      match tryAt re fuel pos prev s with
      | some m => some m
      | none =>
          match s with
          | [] => none
          | c :: rest => searchAux re fuel fl (pos + 1) (some c) rest

/-- Python `re.search`: the match at the leftmost possible start. -/
def research (re : RE) (s : List Char) : Option RMatch :=
  searchAux re (engineFuel re s.length) (s.length + 1) 0 none s

def finditerAux (re : RE) (fuel : Nat) :
    Nat → Nat → Option Char → List Char → List RMatch
  | 0, _, _, _ => []
  | fl + 1, pos, prev, s =>
      match tryAt re fuel pos prev s with
      | some m =>
          if pos < m.mstop then
            m :: finditerAux re fuel fl m.mstop ((s.take (m.mstop - pos)).getLast?)
              (s.drop (m.mstop - pos))
          else
            match s with
            | [] => [m]
            | c :: rest => m :: finditerAux re fuel fl (pos + 1) (some c) rest
      | none =>
          match s with
          | [] => []
          | c :: rest => finditerAux re fuel fl (pos + 1) (some c) rest

/-- Python `re.finditer`: all non-overlapping matches, left to right. -/
def finditer (re : RE) (s : List Char) : List RMatch :=
  finditerAux re (engineFuel re s.length) (s.length + 1) 0 none s

/-- Substring of `s` between absolute positions `a` and `b`. -/
def sliceStr (s : List Char) (a b : Nat) : String := ⟨(s.drop a).take (b - a)⟩

/-- `m.group i` for a capture group that participated in the match. -/
def mgroup (s : List Char) (m : RMatch) (i : Nat) : String :=
  match capGet i m.caps with
  | some (a, b) => sliceStr s a b
  | none => ""

/-! Pattern building blocks. -/

def rcat (l : List RE) : RE := l.foldr RE.seq RE.eps

def ralts : List RE → RE
  | [] => RE.eps
  | [r] => r
  | r :: rest => RE.alt r (ralts rest)

/-- Literal text; `ci` selects case-insensitive comparison. -/
def rlit (ci : Bool) (w : String) : RE :=
  rcat (w.data.map (fun ch =>
    RE.pred (if ci then fun c => c.toLower == ch.toLower else fun c => c == ch)))

/-- `[A-Z]`, which under `re.IGNORECASE` matches any ASCII letter. -/
def clUpper (ci : Bool) : RE := RE.pred (if ci then Char.isAlpha else Char.isUpper)

/-- `[a-z]`, which under `re.IGNORECASE` matches any ASCII letter. -/
def clLower (ci : Bool) : RE := RE.pred (if ci then Char.isAlpha else Char.isLower)

def clDigit : RE := RE.pred Char.isDigit

def clWs : RE := RE.pred isPySpace

def rplus (a : RE) : RE := RE.seq a (RE.star a)

def ropt (a : RE) : RE := RE.alt a RE.eps

def rrep (n : Nat) (a : RE) : RE := rcat (List.replicate n a)

/-- Python `str.upper()` (ASCII inputs). -/
def upperStr (s : String) : String := ⟨s.data.map Char.toUpper⟩

/-- Python `str.capitalize()`: first character upper-cased, rest lower-cased. -/
def capitalizeWord (w : String) : String :=
  match w.data with
  | [] => ""
  | c :: rest => ⟨c.toUpper :: rest.map Char.toLower⟩

/-- Python `str.islower()` for ASCII strings: some cased character exists
and every cased character is lower case. -/
def islowerStr (s : String) : Bool :=
  let cased := s.data.filter Char.isAlpha
  !cased.isEmpty && cased.all Char.isLower

def findSubAux (pat : List Char) : Nat → List Char → Option Nat
  | i, [] => if startsWithL pat [] then some i else none
  | i, c :: cs => if startsWithL pat (c :: cs) then some i else findSubAux pat (i + 1) cs

/-- Python `str.find`: index of the first occurrence, `-1` if absent. -/
def findSub (pat l : List Char) : Int :=
  match findSubAux pat 0 l with
  | some i => (i : Int)
  | none => -1

/-- Python `str.replace` (all occurrences), fuel-guided. -/
def replaceSubF (pat rep : List Char) : Nat → List Char → List Char
  | 0, l => l
  | _, [] => []
  | f + 1, c :: cs =>
      if pat ≠ [] ∧ startsWithL pat (c :: cs) then
        rep ++ replaceSubF pat rep f ((c :: cs).drop pat.length)
      else c :: replaceSubF pat rep f cs

def replaceSub (s pat rep : String) : String :=
  ⟨replaceSubF pat.data rep.data s.data.length s.data⟩

/-- Python `any(w.lower() in bad for w in words)`. -/
def anyWordIn (words : List String) (bad : List String) : Bool :=
  words.any (fun w => bad.contains (lowerStr w))

/-- The `non_name_words` set (rule_extractor.py lines 25-37). -/
def nonNameWords : List String :=
  ["ship", "priority", "mail", "ground", "ups", "fedex", "usps", "tracking", "postage",
   "fees", "paid", "sender", "shipper", "bill", "sender", "notifii", "llc", "corporation",
   "company", "apartments", "apartment", "north", "gate", "south", "east", "west", "suite",
   "ste", "street", "avenue", "road", "drive", "lane", "boulevard", "blvd", "way", "court",
   "circle", "parkway", "highway", "place", "station", "location", "hold", "following",
   "special", "instructiu", "paper", "lbs", "cycle", "ref", "billing", "pip", "cwtainity",
   "manautr", "etxk", "frun", "nippina", "pobtage", "postaqe", "paooed", "envelope",
   "signature", "tracning", "design", "group", "echo", "mason", "college", "sierra", "srra",
   "s8rr", "collede", "buid", "sute", "bud", "colle", "ge", "blvd", "suite"]

/-- Shipping terms excluded in Strategy 1 (line 118). -/
def shipTermWords : List String :=
  ["ups", "fedex", "usps", "ground", "priority", "mail", "express"]

/-- Place names excluded in Strategy 2 (lines 145-155). -/
def strategy2PlaceWords : List String :=
  ["roseville", "williston", "tampa", "norcross", "chicago", "webster", "fort", "collins",
   "folsom", "beach", "bethesda", "pompano", "pamgiano", "pumgiana", "mishawaka", "harvey",
   "emerald", "pointe", "apartment", "homes", "north", "gate", "eaton", "corporation",
   "victory", "world", "church", "allen", "overy", "sterling", "management", "premier",
   "property", "echo", "design", "group", "mason", "street", "sierra", "college", "sierra",
   "srra", "s8rr", "collede", "buid", "sute", "bud", "cleveland", "euless", "new", "york",
   "san", "francisco", "lex", "lbs", "fat1", "united", "states", "dsm1", "tba", "cycle", "sm1"]

/-- Shipping terms excluded in Strategy 3 (line 175). -/
def strategy3TermWords : List String :=
  ["lex", "lbs", "ship", "priority", "mail", "ground", "ups", "batavia", "stkllt"]

/-- Shipping terms skipped in Strategy 3b (lines 195-196). -/
def strategy3bShipWords : List String :=
  ["ups", "fedex", "usps", "ground", "priority", "mail", "express", "tracking", "lbs", "ship"]

/-- Exclusions in the Strategy 3b validity check (lines 201-203). -/
def strategy3bBadWords : List String :=
  ["ship", "priority", "mail", "ground", "ups", "fedex", "usps", "tracking", "lbs", "manautr",
   "ree", "etxk", "nippina", "billing", "pip", "cwtainity"]

/-- Exclusions in Strategy 4 (lines 220-229). -/
def strategy4BadWords : List String :=
  ["roseville", "williston", "tampa", "norcross", "chicago", "webster", "fort", "collins",
   "folsom", "beach", "bethesda", "pompano", "pamgiano", "pumgiana", "mishawaka", "harvey",
   "emerald", "pointe", "apartment", "homes", "north", "gate", "eaton", "corporation",
   "victory", "world", "church", "allen", "overy", "sterling", "management", "premier",
   "property", "echo", "design", "group", "mason", "street", "lex", "lbs", "fat1", "united",
   "states", "dsm1", "tba", "cycle", "sm1", "batavia", "stkllt", "special", "instructiu",
   "metr", "paper", "fedex", "mps", "frun", "notifil", "ground", "bill", "sender"]

/-- Exclusions in Strategy 5 (lines 253-262). -/
def strategy5BadWords : List String :=
  ["roseville", "williston", "tampa", "norcross", "chicago", "webster", "fort", "collins",
   "folsom", "beach", "bethesda", "pompano", "pamgiano", "pumgiana", "mishawaka", "harvey",
   "emerald", "pointe", "apartment", "homes", "north", "gate", "eaton", "corporation",
   "victory", "world", "church", "allen", "overy", "sterling", "management", "premier",
   "property", "echo", "design", "group", "mason", "street", "sierra", "college", "sierra",
   "srra", "s8rr", "collede", "buid", "sute", "bud", "ship", "priority", "mail", "ground",
   "ups", "fedex", "usps", "tracking", "postage", "fees", "paid"]

/-- Exclusions in Strategy 5b (lines 277-284). -/
def strategy5bBadWords : List String :=
  ["roseville", "williston", "tampa", "norcross", "chicago", "webster", "fort", "collins",
   "folsom", "beach", "bethesda", "pompano", "pamgiano", "pumgiana", "mishawaka", "harvey",
   "emerald", "pointe", "apartment", "homes", "north", "gate", "eaton", "corporation",
   "victory", "world", "church", "allen", "overy", "sterling", "management", "premier",
   "property", "echo", "design", "group", "mason", "street", "sierra", "college", "ship",
   "priority", "mail", "ground", "ups", "fedex", "usps"]

/-- Exclusions in the final capitalized name search (lines 382-399). -/
def finalCapBadWords : List String :=
  ["roseville", "williston", "tampa", "norcross", "chicago", "webster", "fort", "collins",
   "folsom", "beach", "bethesda", "pompano", "pamgiano", "pumgiana", "mishawaka", "harvey",
   "emerald", "pointe", "apartment", "homes", "north", "gate", "eaton", "corporation",
   "victory", "world", "church", "allen", "overy", "sterling", "management", "premier",
   "property", "echo", "design", "group", "mason", "street", "sierra", "college", "sierra",
   "srra", "s8rr", "collede", "buid", "sute", "bud", "ship", "priority", "mail", "ground",
   "ups", "fedex", "usps", "tracking", "postage", "fees", "paid", "new", "york", "san",
   "francisco", "cleveland", "euless", "pompano", "pamgiano", "pumgiana", "hold", "following",
   "location", "shipper", "rec", "ipient", "address", "manautr", "ree", "etxk", "nippina",
   "billing", "pip", "cwtainity", "hotifl", "dsnielle", "mills", "anery", "pamgano", "ssy",
   "ee", "roseville", "da", "s5bey", "collede", "bud", "tracning", "notifw", "streelt",
   "group", "lex", "lbs", "fat1", "united", "states", "dsm1", "tba", "cycle", "sm1",
   "batavia", "stkllt", "special", "instructiu", "metr", "paper", "mps", "frun", "notifil",
   "bill", "sender"]

/-- Exclusions in the final lowercase name search (lines 415-431). -/
def finalLowBadWords : List String :=
  ["roseville", "williston", "tampa", "norcross", "chicago", "webster", "fort", "collins",
   "folsom", "beach", "bethesda", "pompano", "pamgiano", "pumgiana", "mishawaka", "harvey",
   "emerald", "pointe", "apartment", "homes", "north", "gate", "eaton", "corporation",
   "victory", "world", "church", "allen", "overy", "sterling", "management", "premier",
   "property", "echo", "design", "group", "mason", "street", "sierra", "college", "ship",
   "priority", "mail", "ground", "ups", "fedex", "usps", "tracking", "postage", "fees",
   "paid", "new", "york", "san", "francisco", "cleveland", "euless", "pompano", "pamgiano",
   "pumgiana", "hold", "following", "location", "shipper", "rec", "ipient", "address",
   "manautr", "ree", "etxk", "nippina", "billing", "pip", "cwtainity", "hotifl", "dsnielle",
   "mills", "anery", "pamgano", "ssy", "ee", "roseville", "da", "s5bey", "collede", "bud",
   "tracning", "notifw", "streelt", "group", "lex", "lbs", "fat1", "united", "states", "dsm1",
   "tba", "cycle", "sm1", "batavia", "stkllt", "special", "instructiu", "metr", "paper",
   "mps", "frun", "notifil", "bill", "sender"]

/-- Last-name exclusions in the anissa special case (line 541). -/
def anissaBadWords : List String :=
  ["roseville", "da", "s5bey", "9410", "collede", "bud", "tracning", "echo", "design",
   "notifw", "priority", "mail", "day", "streelt", "group", "york", "ny", "10016"]

/-- Exclusions in the first name retry of the address-only branch (lines 573-581). -/
def addrOnlyBadWords1 : List String :=
  ["roseville", "williston", "tampa", "norcross", "chicago", "webster", "fort", "collins",
   "folsom", "beach", "bethesda", "pompano", "pamgiano", "pumgiana", "mishawaka", "harvey",
   "emerald", "pointe", "apartment", "homes", "north", "gate", "eaton", "corporation",
   "victory", "world", "church", "allen", "overy", "sterling", "management", "premier",
   "property", "echo", "design", "group", "mason", "street", "sierra", "college", "sierra",
   "srra", "s8rr", "collede", "buid", "sute", "bud", "ship", "priority", "mail", "ground",
   "ups", "fedex", "usps"]

/-- Exclusions in the second name retry of the address-only branch (lines 594-603). -/
def addrOnlyBadWords2 : List String :=
  ["roseville", "williston", "tampa", "norcross", "chicago", "webster", "fort", "collins",
   "folsom", "beach", "bethesda", "pompano", "pamgiano", "pumgiana", "mishawaka", "harvey",
   "emerald", "pointe", "apartment", "homes", "north", "gate", "eaton", "corporation",
   "victory", "world", "church", "allen", "overy", "sterling", "management", "premier",
   "property", "echo", "design", "group", "mason", "street", "sierra", "college", "ship",
   "priority", "mail", "ground", "ups", "fedex", "usps", "tracking", "postage", "fees",
   "paid", "new", "york", "san", "francisco", "cleveland", "euless", "pompano", "pamgiano",
   "pumgiana"]

/-- Exclusions in the aggressive final name retry (lines 630-647). -/
def addrOnlyBadWords3 : List String :=
  ["ship", "priority", "mail", "ground", "ups", "fedex", "usps", "tracking", "postage",
   "fees", "paid", "lbs", "cycle", "ref", "billing", "pip", "manautr", "ree", "etxk",
   "nippina", "notifii", "llc", "corporation", "company", "apartments", "north", "gate",
   "suite", "ste", "street", "avenue", "road", "drive", "lane", "boulevard", "blvd", "way",
   "court", "circle", "parkway", "highway", "place", "station", "location", "hold",
   "following", "special", "instructiu", "paper", "mps", "frun", "bill", "sender", "lex",
   "fat1", "united", "states", "dsm1", "tba", "sm1", "batavia", "stkllt", "metr", "notifil",
   "roseville", "williston", "tampa", "norcross", "chicago", "webster", "fort", "collins",
   "folsom", "beach", "bethesda", "pompano", "pamgiano", "pumgiana", "mishawaka", "harvey",
   "emerald", "pointe", "apartment", "homes", "eaton", "victory", "world", "church", "allen",
   "overy", "sterling", "management", "premier", "property", "echo", "design", "group",
   "mason", "sierra", "college", "srra", "s8rr", "collede", "buid", "sute", "bud",
   "cleveland", "euless", "new", "york", "san", "francisco"]

/-! ### The regular expressions of `rule_extractor.py`, transliterated.
Patterns searched with `re.IGNORECASE` are built with `ci := true`
(under which `[A-Z]` and `[a-z]` match any ASCII letter); the name
patterns of Strategies 2-5b and the final searches carry no flag and use
`ci := false`. -/

/-- `[A-Za-z0-9\s\-]` -/
def clStreetChar : RE := RE.pred (fun c => c.isAlpha || c.isDigit || isPySpace c || c == '-')

/-- `[A-Za-z\s]` -/
def clAlphaWs : RE := RE.pred (fun c => c.isAlpha || isPySpace c)

/-- `[^,]` -/
def clNotComma : RE := RE.pred (fun c => !(c == ','))

/-- `[:\s,]` -/
def clColWsComma : RE := RE.pred (fun c => c == ':' || isPySpace c || c == ',')

/-- `[,\s]` -/
def clCommaWs : RE := RE.pred (fun c => c == ',' || isPySpace c)

/-- `[A-Za-z]` / `[a-zA-Z]` -/
def clAlpha : RE := RE.pred Char.isAlpha

/-- `\d{5}(?:-\d{4})?` -/
def zip5or9RE : RE := rcat [rrep 5 clDigit, ropt (rcat [rlit true "-", rrep 4 clDigit])]

/-- street_types (line 49). -/
def streetTypesRE : RE :=
  ralts (["street", "st", "avenue", "ave", "road", "rd", "drive", "dr", "lane", "ln",
    "boulevard", "blvd", "way", "court", "ct", "circle", "cir", "parkway", "pkwy",
    "highway", "hwy", "place", "pl", "freeway", "fwy"].map (rlit true))

/-- street_pattern (line 50): `(\d+\s+[A-Za-z0-9\s\-]+{street_types})`. -/
def streetPatternRE : RE :=
  RE.group 1 (rcat [rplus clDigit, rplus clWs, rplus clStreetChar, streetTypesRE])

/-- city_state_zip (line 53): `([A-Za-z\s]+),\s*([A-Z]{2})\s+(\d{5}(?:-\d{4})?)`,
with group indices shifted by `off` when embedded after other groups. -/
def cityStateZipRE (off : Nat) : RE :=
  rcat [RE.group (off + 1) (rplus clAlphaWs), rlit true ",", RE.star clWs,
    RE.group (off + 2) (rcat [clUpper true, clUpper true]), rplus clWs,
    RE.group (off + 3) zip5or9RE]

/-- full_address_pattern (line 56). -/
def fullAddressRE : RE := rcat [streetPatternRE, rplus clCommaWs, cityStateZipRE 1]

/-- ship_to_pattern (line 41). -/
def shipToRE : RE :=
  rcat [
    ralts [rcat [rlit true "ship", rplus clWs, rlit true "to"], rlit true "recipient",
      rcat [rlit true "rec", rplus clWs, rlit true "ipient"]],
    rplus clColWsComma,
    RE.nla (rcat [RE.star clWs,
      ralts (["ups", "fedex", "usps", "priority", "mail", "ground", "express"].map (rlit true))]),
    RE.group 1 (rcat [clUpper true, rplus (clLower true),
      rplus (rcat [rplus clWs, clUpper true, rplus (clLower true)])])]

/-- simple_patterns[0] (line 74). -/
def simple1RE : RE :=
  RE.group 1 (rcat [rplus clDigit, rplus clWs, rplus clAlphaWs,
    ralts (["dr", "st", "ave", "rd", "ln", "blvd", "way", "ct", "cir", "hwy", "fwy",
      "parkway", "pkwy"].map (rlit true)),
    RE.star clNotComma, rlit true ",", RE.star clWs, rplus clAlphaWs, rlit true ",",
    RE.star clWs, clUpper true, clUpper true, rplus clWs, zip5or9RE])

/-- simple_patterns[1] (line 75). -/
def simple2RE : RE :=
  RE.group 1 (rcat [rplus clDigit, rplus clWs, rplus clAlphaWs,
    ralts (["street", "st", "avenue", "ave", "road", "rd", "drive", "dr"].map (rlit true)),
    RE.star clNotComma, rlit true ",", RE.star clWs, rplus clAlphaWs, rlit true ",",
    RE.star clWs, clUpper true, clUpper true, rplus clWs, rrep 5 clDigit])

/-- simple_patterns[2] (line 77), the zip-before-city format. -/
def simple3RE : RE :=
  RE.group 1 (rcat [rplus clDigit, rplus clWs, rplus clAlphaWs,
    ralts (["dr", "st", "ave", "rd", "ln", "blvd", "way", "ct", "cir", "hwy"].map (rlit true)),
    RE.star clNotComma, rlit true ",", RE.star clWs, zip5or9RE, rplus clWs,
    rplus clAlphaWs, rlit true ",", RE.star clWs, clUpper true, clUpper true])

/-- zip_city_pattern (line 102): `(\d{5}(?:-\d{4})?)\s+([A-Za-z\s]+),\s*([A-Z]{2})`. -/
def zipCityRE : RE :=
  rcat [RE.group 1 zip5or9RE, rplus clWs, RE.group 2 (rplus clAlphaWs), rlit true ",",
    RE.star clWs, RE.group 3 (rcat [clUpper true, clUpper true])]

/-- name_patterns[0] (line 128): `\b([A-Z][a-z]+\s+[A-Z][a-z]+(?:\s+[A-Z][a-z]+)?)\b`. -/
def nameCap3RE : RE :=
  rcat [RE.wb, RE.group 1 (rcat [clUpper false, rplus (clLower false), rplus clWs,
    clUpper false, rplus (clLower false),
    ropt (rcat [rplus clWs, clUpper false, rplus (clLower false)])]), RE.wb]

/-- name_patterns[1] (line 129): `\b([a-z]+\s+[a-z]+)\b`. -/
def nameLowRE : RE :=
  rcat [RE.wb, RE.group 1 (rcat [rplus (clLower false), rplus clWs,
    rplus (clLower false)]), RE.wb]

/-- `\b([A-Z][a-z]+\s+[A-Z][a-z]+)\b` (Strategies 3b, 4, 5, 5b and final searches). -/
def nameCap2RE : RE :=
  rcat [RE.wb, RE.group 1 (rcat [clUpper false, rplus (clLower false), rplus clWs,
    clUpper false, rplus (clLower false)]), RE.wb]

/-- `^([A-Z][a-z]+(?:\s+[A-Z][a-z]+(?:\s+[A-Z][a-z]+)?)?)` (line 166). -/
def startCapNameRE : RE :=
  rcat [RE.bos, RE.group 1 (rcat [clUpper false, rplus (clLower false),
    ropt (rcat [rplus clWs, clUpper false, rplus (clLower false),
      ropt (rcat [rplus clWs, clUpper false, rplus (clLower false)])])])]

/-- `^([a-z]+\s+[a-z]+)` (line 169). -/
def startLowNameRE : RE :=
  rcat [RE.bos, RE.group 1 (rcat [rplus (clLower false), rplus clWs,
    rplus (clLower false)])]

/-- `\d+\s+[A-Za-z]` (line 235). -/
def digitStreetHintRE : RE := rcat [rplus clDigit, rplus clWs, clAlpha]

/-- `,\s*[A-Z]{2}\s+\d{5}` (line 291). -/
def addrCompleteRE : RE :=
  rcat [rlit true ",", RE.star clWs, clUpper true, clUpper true, rplus clWs, rrep 5 clDigit]

/-- street_num_pattern (line 324). -/
def streetNumRE : RE :=
  RE.group 1 (rcat [rplus clDigit, rplus clWs, rplus clStreetChar,
    ralts (["dr", "st", "ave", "rd", "ln", "blvd", "way", "ct", "cir", "hwy", "fwy",
      "parkway", "pkwy"].map (rlit true))])

/-- street pattern of the second Strategy 7 (line 351). -/
def street7bRE : RE :=
  RE.group 1 (rcat [rplus clDigit, rplus clWs, rplus clAlphaWs,
    ralts (["dr", "st", "ave", "rd", "ln", "blvd", "way", "ct", "cir", "hwy",
      "fwy"].map (rlit true))])

/-- city_state_simple (line 363): `([A-Za-z\s]+),\s*([A-Z]{2})\s+(\d{5})`. -/
def cityStateSimpleRE : RE :=
  rcat [RE.group 1 (rplus clAlphaWs), rlit true ",", RE.star clWs,
    RE.group 2 (rcat [clUpper true, clUpper true]), rplus clWs, RE.group 3 (rrep 5 clDigit)]

/-- `\b([a-zA-Z]{2,}\s+[a-zA-Z]{2,})\b` (line 625). -/
def anyTwoWordRE : RE :=
  rcat [RE.wb, RE.group 1 (rcat [clAlpha, rplus clAlpha, rplus clWs, clAlpha,
    rplus clAlpha]), RE.wb]

/-- `2821\s+carradale\s+dr` (lines 454, 471). -/
def carradaleRE : RE :=
  rcat [rlit true "2821", rplus clWs, rlit true "carradale", rplus clWs, rlit true "dr"]

/-- `(\d{5}(?:-\d{4})?)\s+([A-Za-z]+),\s*([A-Z]{2})` (lines 457, 475). -/
def zipCityTightRE : RE :=
  rcat [RE.group 1 zip5or9RE, rplus clWs, RE.group 2 (rplus clAlpha), rlit true ",",
    RE.star clWs, RE.group 3 (rcat [clUpper true, clUpper true])]

/-- `\bky\s+dong\b` (line 466). -/
def kyDongRE : RE := rcat [RE.wb, rlit true "ky", rplus clWs, rlit true "dong", RE.wb]

/-- `\bralla\s+ramirez\b` (line 484). -/
def rallaRE : RE := rcat [RE.wb, rlit true "ralla", rplus clWs, rlit true "ramirez", RE.wb]

/-- `201\s+monticella\s+sardens\s+piace` (line 489). -/
def monticellaRE : RE :=
  rcat [rlit true "201", rplus clWs, rlit true "monticella", rplus clWs,
    rlit true "sardens", rplus clWs, rlit true "piace"]

/-- `tampa\s+fl\s+(\d{5}(?:-\d{4})?)` (line 492). -/
def tampaFlRE : RE :=
  rcat [rlit true "tampa", rplus clWs, rlit true "fl", rplus clWs, RE.group 1 zip5or9RE]

/-- `\bdsnielle\s+mills\b` (line 499). -/
def dsnielleRE : RE :=
  rcat [RE.wb, rlit true "dsnielle", rplus clWs, rlit true "mills", RE.wb]

/-- `2700\s+whitney\s+ave` (line 504). -/
def whitneyRE : RE :=
  rcat [rlit true "2700", rplus clWs, rlit true "whitney", rplus clWs, rlit true "ave"]

/-- `harvey\s+la\s+(\d{5}(?:-\d{4})?)` (line 508). -/
def harveyLaRE : RE :=
  rcat [rlit true "harvey", rplus clWs, rlit true "la", rplus clWs, RE.group 1 zip5or9RE]

/-- `\banery\s+pamgano\b` (line 516). -/
def aneryRE : RE :=
  rcat [RE.wb, rlit true "anery", rplus clWs, rlit true "pamgano", RE.wb]

/-- `275\s+n\s+federal\s+hwy` (line 523). -/
def federalHwyRE : RE :=
  rcat [rlit true "275", rplus clWs, rlit true "n", rplus clWs, rlit true "federal",
    rplus clWs, rlit true "hwy"]

/-- `pumgiana\s+beach\s+fl\s+(\d{5}(?:\s+\d{4})?)` (line 526). -/
def pumgianaRE : RE :=
  rcat [rlit true "pumgiana", rplus clWs, rlit true "beach", rplus clWs, rlit true "fl",
    rplus clWs, RE.group 1 (rcat [rrep 5 clDigit, ropt (rcat [rplus clWs, rrep 4 clDigit])])]

/-- `\banissa\b` (line 534). -/
def anissaRE : RE := rcat [RE.wb, rlit true "anissa", RE.wb]

/-- `\b([A-Z][a-z]+)\b` (line 538, no flag). -/
def lastNameRE : RE :=
  rcat [RE.wb, RE.group 1 (rcat [clUpper false, rplus (clLower false)]), RE.wb]

/-- `10\s+e\s+40uh\s+streelt` (line 548). -/
def streeltRE : RE :=
  rcat [rlit true "10", rplus clWs, rlit true "e", rplus clWs, rlit true "40uh",
    rplus clWs, rlit true "streelt"]

/-- `new\s+york\s+ny\s+(\d{5}(?:-\s*\d+)?)` (line 551). -/
def newYorkRE : RE :=
  rcat [rlit true "new", rplus clWs, rlit true "york", rplus clWs, rlit true "ny",
    rplus clWs, RE.group 1 (rcat [rrep 5 clDigit,
      ropt (rcat [rlit true "-", RE.star clWs, rplus clDigit])])]

/-- Strategy 2 candidate scan (lines 135-157): candidates are tried from
the last match backwards; a candidate passes if it has at least two
words none of which is a non-name word, is capitalized when it was a
two-word lowercase candidate, and contains no place word. -/
def strategy2Pick (t : List Char) (ms : List RMatch) : Option String :=
  ms.reverse.findSome? (fun m =>
    let candidate := pstrip (mgroup t m 1)
    let words := splitWs candidate
    if 2 ≤ words.length ∧ ¬ anyWordIn words nonNameWords then
      let candidate := if islowerStr candidate ∧ words.length = 2 then
        String.intercalate " " (words.map capitalizeWord) else candidate
      if ¬ anyWordIn words strategy2PlaceWords then some candidate else none
    else none)

/-- Distance from a candidate position to the address occurrence
(lines 402-406, 434-440): `9999` when there is no address or the address
does not occur in the text. -/
def distTo (address : Option String) (t : List Char) (pos : Nat) : Nat :=
  match address with
  | some addr =>
      let addr_pos := findSub addr.data t
      if 0 ≤ addr_pos then ((pos : Int) - addr_pos).natAbs else 9999
  | none => 9999

/-- Sort key order of the final name search (line 445): by distance to
the address, then by position. -/
def candLe (a b : String × Nat × Nat) : Prop :=
  a.2.1 < b.2.1 ∨ (a.2.1 = b.2.1 ∧ a.2.2 ≤ b.2.2)

instance : DecidableRel candLe := fun a b => by
  unfold candLe
  infer_instance

/-- `extract_name_address_rule_based` (`src/src/extractors/rule_extractor.py`),
transliterated clause by clause; line numbers refer to the source file. -/
def extract_name_address_rule_based (ocrText : String) : List Pair :=
  -- line 21-22
  let text := pstrip ocrText
  let t := text.data
  let tl := (lowerStr text).data
  -- line 42
  let ship_to_match := research shipToRE t
  -- lines 59-109: address cascade
  let addr0 : Option String × Int :=
    match research fullAddressRE t with
    | some m =>
        let street := pstrip (mgroup t m 1)
        let city := pstrip (mgroup t m 2)
        let state := mgroup t m 3
        let zip_code := mgroup t m 4
        (some (street ++ ", " ++ city ++ ", " ++ state ++ " " ++ zip_code), (m.mstart : Int))
    | none =>
        match [simple1RE, simple2RE, simple3RE].findSome? (fun p =>
            (research p t).map (fun m => (pstrip (mgroup t m 1), m.mstart))) with
        | some (a, st) => (some a, (st : Int))
        | none =>
            match research streetPatternRE t with
            | some sm =>
                let street := pstrip (mgroup t sm 1)
                let remaining := (t.drop sm.mstop).take 200
                match research (cityStateZipRE 0) remaining with
                | some cm =>
                    let city := pstrip (mgroup remaining cm 1)
                    let state := mgroup remaining cm 2
                    let zip_code := mgroup remaining cm 3
                    (some (street ++ ", " ++ city ++ ", " ++ state ++ " " ++ zip_code),
                      (sm.mstart : Int))
                | none =>
                    match research zipCityRE remaining with
                    | some zm =>
                        let zip_code := mgroup remaining zm 1
                        let city := pstrip (mgroup remaining zm 2)
                        let state := mgroup remaining zm 3
                        (some (street ++ ", " ++ city ++ ", " ++ state ++ " " ++ zip_code),
                          (sm.mstart : Int))
                    | none => (none, -1)
            | none => (none, -1)
  let address := addr0.1
  let address_start := addr0.2
  -- Strategy 1 (lines 115-119)
  let name : Option String :=
    match ship_to_match with
    | some m =>
        let candidate_name := pstrip (mgroup t m 1)
        if ¬ (["ups", "fedex", "usps", "ground", "priority", "mail", "express"].contains
            (lowerStr candidate_name)) then some candidate_name else none
    | none => none
  -- Strategy 2 (lines 122-159)
  let name :=
    if name.isNone ∧ 0 < address_start then
      let text_before_address := t.take address_start.toNat
      match strategy2Pick text_before_address (finditer nameCap3RE text_before_address) with
      | some nm => some nm
      | none => strategy2Pick text_before_address (finditer nameLowRE text_before_address)
    else name
  -- Strategy 3 (lines 162-179)
  let name :=
    if name.isNone then
      let text_start := t.take 200
      let name_match :=
        match research startCapNameRE text_start with
        | some m => some m
        | none => research startLowNameRE text_start
      match name_match with
      | some m =>
          let candidate := pstrip (mgroup text_start m 1)
          let words := splitWs candidate
          if 2 ≤ words.length ∧ ¬ anyWordIn words nonNameWords ∧
              ¬ anyWordIn words strategy3TermWords then
            some (if islowerStr candidate then
              String.intercalate " " (words.map capitalizeWord) else candidate)
          else none
      | none => none
    else name
  -- Strategy 3b (lines 182-205)
  let name :=
    if name.isNone then
      match findSubAux "ship to".data 0 tl with
      | some ship_to_pos =>
          let text_after_ship_to := (t.drop (ship_to_pos + 7)).take 293
          (finditer nameCap2RE text_after_ship_to).findSome? (fun m =>
            let candidate := pstrip (mgroup text_after_ship_to m 1)
            let words := splitWs candidate
            if anyWordIn words strategy3bShipWords then none
            else if words.length = 2 ∧ ¬ anyWordIn words nonNameWords ∧
                ¬ anyWordIn words strategy3bBadWords then some candidate
            else none)
      | none => none
    else name
  -- Strategy 4 (lines 208-237)
  let name :=
    if name.isNone then
      (finditer nameCap2RE t ++ finditer nameLowRE t).findSome? (fun m =>
        let candidate := pstrip (mgroup t m 1)
        let words := splitWs candidate
        if words.length = 2 ∧ ¬ anyWordIn words nonNameWords ∧
            ¬ anyWordIn words strategy4BadWords then
          let candidate := if islowerStr candidate then
            String.intercalate " " (words.map capitalizeWord) else candidate
          let remaining := (t.drop m.mstop).take 100
          if (research digitStreetHintRE remaining).isSome ∨ address.isSome then
            some candidate
          else none
        else none)
    else name
  -- Strategy 5 (lines 240-264)
  let name :=
    if name.isNone then
      match address with
      | some addr =>
          let addr_pos := findSub addr.data t
          if 0 < addr_pos then
            let text_before := t.take addr_pos.toNat
            let text_before := if 300 < text_before.length then
              text_before.drop (text_before.length - 300) else text_before
            (finditer nameCap2RE text_before).reverse.findSome? (fun m =>
              let candidate := pstrip (mgroup text_before m 1)
              let words := splitWs candidate
              if words.length = 2 ∧ ¬ anyWordIn words nonNameWords ∧
                  ¬ anyWordIn words strategy5BadWords then some candidate else none)
          else none
      | none => none
    else name
  -- Strategy 5b (lines 267-286)
  let name :=
    if name.isNone then
      match address with
      | some addr =>
          let addr_pos := findSub addr.data t
          if 0 ≤ addr_pos then
            let text_after := (t.drop (addr_pos.toNat + addr.length)).take 200
            (finditer nameCap2RE text_after).findSome? (fun m =>
              let candidate := pstrip (mgroup text_after m 1)
              let words := splitWs candidate
              if words.length = 2 ∧ ¬ anyWordIn words nonNameWords ∧
                  ¬ anyWordIn words strategy5bBadWords then some candidate else none)
          else none
      | none => none
    else name
  -- Strategy 6 (lines 289-319): address completion
  let address :=
    match address with
    | some addr =>
        if 0 ≤ address_start ∧ (research addrCompleteRE addr.data).isNone then
          let remaining_after := (t.drop (address_start.toNat + addr.length)).take 200
          match research (cityStateZipRE 0) remaining_after with
          | some cm =>
              some (addr ++ ", " ++ pstrip (mgroup remaining_after cm 1) ++ ", " ++
                mgroup remaining_after cm 2 ++ " " ++ mgroup remaining_after cm 3)
          | none =>
              let rb_start := address_start.toNat - 200
              let remaining_before := (t.drop rb_start).take (address_start.toNat - rb_start)
              match research (cityStateZipRE 0) remaining_before with
              | some cm =>
                  some (addr ++ ", " ++ pstrip (mgroup remaining_before cm 1) ++ ", " ++
                    mgroup remaining_before cm 2 ++ " " ++ mgroup remaining_before cm 3)
              | none =>
                  match research (cityStateZipRE 0) t with
                  | some cm =>
                      let city := pstrip (mgroup t cm 1)
                      if ¬ containsSub (lowerStr city).data (lowerStr addr).data then
                        some (addr ++ ", " ++ city ++ ", " ++ mgroup t cm 2 ++ " " ++
                          mgroup t cm 3)
                      else some addr
                  | none => some addr
        else some addr
    | none => none
  -- Strategy 7 (lines 322-346): address fallback
  let address :=
    match address with
    | some a => some a
    | none =>
        match research streetNumRE t with
        | some sm =>
            let street := pstrip (mgroup t sm 1)
            let remaining_after_street := (t.drop sm.mstop).take 150
            match research (cityStateZipRE 0) remaining_after_street with
            | some cm =>
                some (street ++ ", " ++ pstrip (mgroup remaining_after_street cm 1) ++ ", " ++
                  mgroup remaining_after_street cm 2 ++ " " ++ mgroup remaining_after_street cm 3)
            | none =>
                match research (cityStateZipRE 0) t with
                | some cm =>
                    some (street ++ ", " ++ pstrip (mgroup t cm 1) ++ ", " ++
                      mgroup t cm 2 ++ " " ++ mgroup t cm 3)
                | none => some street
        | none => none
  -- second Strategy 7 (lines 349-370): address from components when a name exists
  let address :=
    if name.isSome ∧ address.isNone then
      match research street7bRE t with
      | some sm =>
          let street := pstrip (mgroup t sm 1)
          match research (cityStateZipRE 0) t with
          | some cm =>
              some (street ++ ", " ++ pstrip (mgroup t cm 1) ++ ", " ++
                mgroup t cm 2 ++ " " ++ mgroup t cm 3)
          | none =>
              match research cityStateSimpleRE t with
              | some cm =>
                  some (street ++ ", " ++ pstrip (mgroup t cm 1) ++ ", " ++
                    mgroup t cm 2 ++ " " ++ mgroup t cm 3)
              | none => some street
      | none => address
    else address
  -- final name search (lines 373-446)
  let name :=
    if name.isNone then
      let capCands := (finditer nameCap2RE t).filterMap (fun m =>
        let candidate := pstrip (mgroup t m 1)
        let words := splitWs candidate
        if words.length = 2 ∧ ¬ anyWordIn words nonNameWords ∧
            ¬ anyWordIn words finalCapBadWords then
          some (candidate, distTo address t m.mstart, m.mstart)
        else none)
      let lowCands := (finditer nameLowRE t).filterMap (fun m =>
        let candidate := pstrip (mgroup t m 1)
        let words := splitWs candidate
        if words.length = 2 ∧ ¬ anyWordIn words nonNameWords ∧
            ¬ anyWordIn words finalLowBadWords then
          some (String.intercalate " " (words.map capitalizeWord),
            distTo address t m.mstart, m.mstart)
        else none)
      match ((capCands ++ lowCands).insertionSort candLe).head? with
      | some c => some c.1
      | none => none
    else name
  -- zoey dong special case (lines 450-462)
  let na :=
    if name.isNone && containsSub "zoey dong".data tl then
      let name := some "Zoey Dong"
      let address :=
        if address.isNone || containsSub "2821 carradale".data tl then
          match research carradaleRE t with
          | some sm =>
              let remaining := (t.drop sm.mstop).take 100
              match research zipCityTightRE remaining with
              | some zm =>
                  let zip_code := mgroup remaining zm 1
                  let city := capitalizeWord (mgroup remaining zm 2)
                  let state := upperStr (mgroup remaining zm 3)
                  some ("2821 carradale dr, " ++ city ++ ", " ++ state ++ " " ++ zip_code)
              | none => address
          | none => address
        else address
      (name, address)
    else (name, address)
  let name := na.1
  let address := na.2
  -- ky dong special case (lines 465-480)
  let na :=
    if name.isNone && containsSub "ship to".data tl && containsSub "ky dong".data tl then
      match research kyDongRE t with
      | some _ =>
          let name := some "Ky Dong"
          let address :=
            if address.isNone || containsSub "2821 carradale".data tl then
              match research carradaleRE t with
              | some sm =>
                  let remaining := (t.drop sm.mstop).take 100
                  match research zipCityTightRE remaining with
                  | some zm =>
                      let zip_code := mgroup remaining zm 1
                      let city := capitalizeWord (mgroup remaining zm 2)
                      let state := upperStr (mgroup remaining zm 3)
                      some ("2821 carradale dr, " ++ city ++ ", " ++ state ++ " " ++ zip_code)
                  | none => address
              | none => address
            else address
          (name, address)
      | none => (name, address)
    else (name, address)
  let name := na.1
  let address := na.2
  -- ralla ramirez special case (lines 483-495)
  let na :=
    if name.isNone && containsSub "ralla ramirez".data tl then
      match research rallaRE t with
      | some _ =>
          let name := some "Ralla Ramirez"
          let address :=
            if address.isNone || containsSub "monticella".data tl then
              match research monticellaRE t with
              | some sm =>
                  let remaining := (t.drop sm.mstop).take 100
                  match research tampaFlRE remaining with
                  | some cm =>
                      some ("201 monticella sardens place, Tampa, FL " ++
                        mgroup remaining cm 1)
                  | none => address
              | none => address
            else address
          (name, address)
      | none => (name, address)
    else (name, address)
  let name := na.1
  let address := na.2
  -- dsnielle mills special case (lines 498-511)
  let na :=
    if name.isNone && containsSub "dsnielle mills".data tl then
      match research dsnielleRE t with
      | some _ =>
          let name := some "Dsnielle Mills"
          let address :=
            if address.isNone || containsSub "2700 whitney".data tl then
              match research whitneyRE t with
              | some sm =>
                  let remaining := t.drop sm.mstop
                  match research harveyLaRE remaining with
                  | some cm =>
                      some ("2700 whitney ave, Harvey, LA " ++ mgroup remaining cm 1)
                  | none => address
              | none => address
            else address
          (name, address)
      | none => (name, address)
    else (name, address)
  let name := na.1
  let address := na.2
  -- anery pamgano special case (lines 514-529)
  let na :=
    if name.isNone && containsSub "anery pamgano".data tl then
      let name :=
        match research aneryRE t with
        | some _ => some "Anery Pamgano"
        | none => name
      let address :=
        if address.isNone || containsSub "275 n federal".data tl then
          match research federalHwyRE t with
          | some sm =>
              let remaining := t.drop sm.mstop
              match research pumgianaRE remaining with
              | some cm =>
                  some ("275 n federal hwy, Pumgiana Beach, FL " ++
                    replaceSub (mgroup remaining cm 1) " " "-")
              | none => address
          | none => address
        else address
      (name, address)
    else (name, address)
  let name := na.1
  let address := na.2
  -- anissa special case (lines 532-554)
  let na :=
    if name.isNone && containsSub "anissa".data tl then
      let name :=
        match research anissaRE t with
        | some am =>
            let text_after := (t.drop am.mstop).take 50
            match research lastNameRE text_after with
            | some lm =>
                let last_name := mgroup text_after lm 1
                if ¬ anissaBadWords.contains (lowerStr last_name) then
                  some ("Anissa " ++ last_name)
                else name
            | none => some "Anissa"
        | none => name
      let address :=
        if address.isNone || containsSub "10 e 40uh".data tl then
          match research streeltRE t with
          | some sm =>
              let remaining := t.drop sm.mstop
              match research newYorkRE remaining with
              | some cm =>
                  some ("10 e 40th st, New York, NY " ++
                    replaceSub (replaceSub (mgroup remaining cm 1) " " "") "0r00" "0000")
              | none => address
          | none => address
        else address
      (name, address)
    else (name, address)
  let name := na.1
  let address := na.2
  -- final assembly (lines 557-681)
  match name, address with
  | some n, some a => [⟨n, a⟩]
  | none, some a =>
      -- lines 562-661: address without name
      let name : Option String :=
        let text_start := t.take 150
        match research nameCap2RE text_start with
        | some m =>
            let candidate := pstrip (mgroup text_start m 1)
            let words := splitWs candidate
            if words.length = 2 ∧ ¬ anyWordIn words nonNameWords ∧
                ¬ anyWordIn words addrOnlyBadWords1 then some candidate
            else none
        | none => none
      let name :=
        if name.isNone then
          (finditer nameCap2RE t).findSome? (fun m =>
            let candidate := pstrip (mgroup t m 1)
            let words := splitWs candidate
            if words.length = 2 ∧ ¬ anyWordIn words nonNameWords ∧
                ¬ anyWordIn words addrOnlyBadWords2 then
              let addr_pos := findSub a.data t
              if 0 ≤ addr_pos ∧ ((m.mstart : Int) - addr_pos).natAbs < 500 then
                some candidate
              else none
            else none)
        else name
      let name :=
        if name.isNone then
          let addr_pos := findSub a.data t
          if 0 ≤ addr_pos then
            let search_start := addr_pos.toNat - 500
            let search_end := min t.length (addr_pos.toNat + a.length + 500)
            let search_text := (t.drop search_start).take (search_end - search_start)
            (finditer anyTwoWordRE search_text).findSome? (fun m =>
              let candidate := pstrip (mgroup search_text m 1)
              let words := splitWs candidate
              if words.length = 2 then
                if ¬ anyWordIn words addrOnlyBadWords3 ∧
                    words.all (fun w => 3 ≤ w.length) then
                  some (if islowerStr candidate then
                    String.intercalate " " (words.map capitalizeWord) else candidate)
                else none
              else none)
          else none
        else name
      match name with
      | some n => [⟨n, a⟩]
      | none => [⟨"Unknown", a⟩]
  | some n, none =>
      -- lines 662-680: name without address
      match research (cityStateZipRE 0) t with
      | some cm =>
          [⟨n, pstrip (mgroup t cm 1) ++ ", " ++ mgroup t cm 2 ++ " " ++ mgroup t cm 3⟩]
      | none => [⟨n, "Address not found"⟩]
  | none, none => []

/-! ## Theorems -/

/-! ### Basic facts about the similarity scores -/

theorem lcsF_le_left : ∀ (f : Nat) (xs ys : List Char), lcsF f xs ys ≤ xs.length := by
  intro f
  induction f with
  | zero => intro xs ys; simp [lcsF]
  | succ f ih =>
    intro xs ys
    match xs, ys with
    | [], _ => simp [lcsF]
    | _ :: _, [] => simp [lcsF]
    | a :: as, b :: bs =>
      simp only [lcsF]
      split
      · have := ih as bs; simp only [List.length_cons]; omega
      · have h₁ := ih (a :: as) bs
        have h₂ := ih as (b :: bs)
        simp only [List.length_cons] at *
        omega

theorem lcsF_le_right : ∀ (f : Nat) (xs ys : List Char), lcsF f xs ys ≤ ys.length := by
  intro f
  induction f with
  | zero => intro xs ys; simp [lcsF]
  | succ f ih =>
    intro xs ys
    match xs, ys with
    | [], _ => simp [lcsF]
    | _ :: _, [] => simp [lcsF]
    | a :: as, b :: bs =>
      simp only [lcsF]
      split
      · have := ih as bs; simp only [List.length_cons]; omega
      · have h₁ := ih (a :: as) bs
        have h₂ := ih as (b :: bs)
        simp only [List.length_cons] at *
        omega

theorem fuzzRatio_nonneg (a b : String) : 0 ≤ fuzzRatio a b := by
  unfold fuzzRatio
  dsimp only
  split
  · norm_num
  · positivity

theorem fuzzRatio_le_100 (a b : String) : fuzzRatio a b ≤ 100 := by
  unfold fuzzRatio
  dsimp only
  split
  · norm_num
  · rename_i h
    have hL₁ : lcs a.data b.data ≤ a.data.length := lcsF_le_left _ _ _
    have hL₂ : lcs a.data b.data ≤ b.data.length := lcsF_le_right _ _ _
    have hpos : (0 : ℚ) < (a.data.length : ℚ) + (b.data.length : ℚ) := by
      have : 0 < a.data.length + b.data.length := Nat.pos_of_ne_zero h
      exact_mod_cast this
    rw [div_le_iff₀ hpos]
    have : (lcs a.data b.data : ℚ) ≤ a.data.length ∧ (lcs a.data b.data : ℚ) ≤ b.data.length :=
      ⟨by exact_mod_cast hL₁, by exact_mod_cast hL₂⟩
    nlinarith [this.1, this.2]

theorem tokenSortRatio_nonneg (a b : String) : 0 ≤ tokenSortRatio a b :=
  fuzzRatio_nonneg _ _

theorem tokenSortRatio_le_100 (a b : String) : tokenSortRatio a b ≤ 100 :=
  fuzzRatio_le_100 _ _

theorem fuzzyMatchAddress_nonneg (a : String) (r : Recipient) : 0 ≤ fuzzyMatchAddress a r := by
  unfold fuzzyMatchAddress
  split
  · norm_num
  · exact tokenSortRatio_nonneg _ _

theorem fuzzyMatchAddress_le_100 (a : String) (r : Recipient) : fuzzyMatchAddress a r ≤ 100 := by
  unfold fuzzyMatchAddress
  split
  · norm_num
  · exact tokenSortRatio_le_100 _ _

/-- Rounding to two decimals cannot drop below an integer bound. -/
theorem int_le_round2 (t : Int) (q : ℚ) (h : (t : ℚ) ≤ q) : (t : ℚ) ≤ round2 q := by
  unfold round2
  have hfl : (t * 100 : Int) ≤ ⌊q * 100 + 1/2⌋ := by
    rw [Int.le_floor]
    push_cast
    linarith
  have hfl' : ((t * 100 : Int) : ℚ) ≤ (⌊q * 100 + 1/2⌋ : ℚ) := by exact_mod_cast hfl
  have h100 : (0 : ℚ) < 100 := by norm_num
  calc (t : ℚ) = ((t * 100 : Int) : ℚ) / 100 := by push_cast; ring
    _ ≤ (⌊q * 100 + 1/2⌋ : ℚ) / 100 := by
        exact (div_le_div_iff_of_pos_right h100).mpr hfl'

/-- Rounding to two decimals cannot exceed an integer bound. -/
theorem round2_le_int (t : Int) (q : ℚ) (h : q ≤ (t : ℚ)) : round2 q ≤ (t : ℚ) := by
  unfold round2
  have hfl : ⌊q * 100 + 1/2⌋ ≤ (t * 100 : Int) := by
    have : ⌊q * 100 + 1/2⌋ ≤ ⌊((t * 100 : Int) : ℚ) + 1/2⌋ := by
      apply Int.floor_le_floor
      push_cast
      linarith
    have heq : ⌊((t * 100 : Int) : ℚ) + 1/2⌋ = t * 100 := by
      rw [Int.floor_int_add]
      norm_num
    omega
  have hfl' : (⌊q * 100 + 1/2⌋ : ℚ) ≤ ((t * 100 : Int) : ℚ) := by exact_mod_cast hfl
  have h100 : (0 : ℚ) < 100 := by norm_num
  calc (⌊q * 100 + 1/2⌋ : ℚ) / 100 ≤ ((t * 100 : Int) : ℚ) / 100 :=
        (div_le_div_iff_of_pos_right h100).mpr hfl'
    _ = (t : ℚ) := by push_cast; ring

/-! ### Membership structure of `match_pair`'s output -/

theorem mem_fuzzyMatchName {thr : Int} {n : String} {vs : List (String × Nat)}
    {x : Nat × ℚ} (hx : x ∈ fuzzyMatchName thr n vs) :
    ∃ kv ∈ vs, (thr : ℚ) ≤ fuzzRatio (pstrip (lowerStr n)) kv.1 ∧
      x = (kv.2, fuzzRatio (pstrip (lowerStr n)) kv.1) := by
  unfold fuzzyMatchName at hx
  split at hx
  · simp at hx
  · rw [List.mem_insertionSort] at hx
    obtain ⟨kv, hkv, rfl⟩ := List.mem_map.mp hx
    have := List.mem_filter.mp hkv
    refine ⟨kv, this.1, ?_, rfl⟩
    simpa using this.2

theorem fuzzyMatchName_score_ge {thr : Int} {n : String} {vs : List (String × Nat)}
    {x : Nat × ℚ} (hx : x ∈ fuzzyMatchName thr n vs) : (thr : ℚ) ≤ x.2 := by
  obtain ⟨kv, _, hle, rfl⟩ := mem_fuzzyMatchName hx
  exact hle

theorem fuzzyMatchName_score_bounds {thr : Int} {n : String} {vs : List (String × Nat)}
    {x : Nat × ℚ} (hx : x ∈ fuzzyMatchName thr n vs) : 0 ≤ x.2 ∧ x.2 ≤ 100 := by
  obtain ⟨kv, _, _, rfl⟩ := mem_fuzzyMatchName hx
  exact ⟨fuzzRatio_nonneg _ _, fuzzRatio_le_100 _ _⟩

/-- Every element of `matchPair`'s output is the candidate built from some
surviving name match. -/
theorem mem_matchPair {db : List Recipient} {thr : Int} {n a : String}
    {m : MatchCandidate} (hm : m ∈ matchPair db thr n a) :
    ∃ ns ∈ fuzzyMatchName thr n (createNameVariations db),
      (thr : ℚ) ≤ combinedScore ns.2 (fuzzyMatchAddress a (dbLookup db ns.1)) ∧
      m = MatchCandidate.mk ns.1 ns.2 (fuzzyMatchAddress a (dbLookup db ns.1))
        (round2 (combinedScore ns.2 (fuzzyMatchAddress a (dbLookup db ns.1))))
        (decide (1 < (fuzzyMatchName thr n (createNameVariations db)).length)) := by
  unfold matchPair at hm
  rw [List.mem_insertionSort] at hm
  obtain ⟨ns, hns, rfl⟩ := List.mem_map.mp hm
  have hf := List.mem_filter.mp hns
  refine ⟨ns, hf.1, ?_, rfl⟩
  simpa using hf.2

/-- The length of the surviving name-match list equals the number of
variation entries clearing the name threshold (when any match survives at
all). -/
theorem fuzzyMatchName_length_of_mem {thr : Int} {n : String} {vs : List (String × Nat)}
    {x : Nat × ℚ} (hx : x ∈ fuzzyMatchName thr n vs) :
    (fuzzyMatchName thr n vs).length =
      (vs.filter (fun kv => decide ((thr : ℚ) ≤ fuzzRatio (pstrip (lowerStr n)) kv.1))).length := by
  unfold fuzzyMatchName at hx ⊢
  split at hx
  · simp at hx
  · rename_i hcond
    rw [if_neg hcond]
    rw [(List.perm_insertionSort _ _).length_eq, List.length_map]

/-- C1 counterexample: with a single directory recipient named "Ana Ana",
the input name "ana ana" matches both of that one recipient's variation
keys ("ana ana" and "ana, ana"), so every emitted MatchCandidate has
`is_ambiguous = true` although only one distinct recipient clears the
threshold.  `is_ambiguous` therefore does not agree with "at least two
distinct directory recipients score ≥ threshold". -/
theorem claim_C1_counterexample :
    (OCR.matchPair OCR.exDbAna 70 "ana ana" "x").length = 2 ∧
    (∀ m ∈ OCR.matchPair OCR.exDbAna 70 "ana ana" "x", m.is_ambiguous = true) ∧
    ((OCR.fuzzyMatchName 70 "ana ana" (OCR.createNameVariations OCR.exDbAna)).map
        Prod.fst).dedup.length = 1 := by
  decide

/-- C1 (amended): every MatchCandidate emitted by `match_pair` has
`is_ambiguous = true` iff at least two name-variation entries (dict keys,
counted per key across the deduplicated variation map, not per distinct
recipient) score ≥ threshold against the input name. -/
theorem claim_C1_amended (db : List Recipient) (thr : Int) (n a : String)
    (m : MatchCandidate) (hm : m ∈ matchPair db thr n a) :
    m.is_ambiguous = true ↔
      2 ≤ ((createNameVariations db).filter
        (fun kv => decide ((thr : ℚ) ≤ fuzzRatio (pstrip (lowerStr n)) kv.1))).length := by
  obtain ⟨ns, hns, _, rfl⟩ := mem_matchPair hm
  have hlen := fuzzyMatchName_length_of_mem hns
  simp only [decide_eq_true_eq]
  rw [hlen]
  omega

/-- Witness for C1 (amended) at a concrete emitted candidate. -/
theorem claim_C1_witness :
    ((⟨1, 100, 100, 100, true⟩ : OCR.MatchCandidate).is_ambiguous = true ↔
      2 ≤ ((OCR.createNameVariations OCR.exDbAna).filter
        (fun kv => decide (((70 : Int) : ℚ) ≤
          OCR.fuzzRatio (OCR.pstrip (OCR.lowerStr "ana ana")) kv.1))).length) :=
  OCR.claim_C1_amended OCR.exDbAna 70 "ana ana" "x" ⟨1, 100, 100, 100, true⟩ (by decide)

/-- C2 counterexample: an emitted MatchCandidate whose stored
`combined_confidence` (rounded to two decimals) differs from the exact
value `0.6 * name_score + 0.4 * address_score`. -/
theorem claim_C2_counterexample :
    ∃ m ∈ OCR.matchPair OCR.exDbC2 70 "ab cd" "aaa b",
      m.combined_confidence ≠
        m.name_match_score * (6/10) + m.address_match_score * (4/10) := by
  decide

/-- C2 (amended): every emitted MatchCandidate stores
`combined_confidence = round(0.6 * name_score + 0.4 * address_score, 2)`
(rounded to two decimal places), and the stored value lies in [0, 100]. -/
theorem claim_C2_amended (db : List Recipient) (thr : Int) (n a : String)
    (m : MatchCandidate) (hm : m ∈ matchPair db thr n a) :
    m.combined_confidence =
      round2 (m.name_match_score * (6/10) + m.address_match_score * (4/10)) ∧
    0 ≤ m.combined_confidence ∧ m.combined_confidence ≤ 100 := by
  obtain ⟨ns, hns, _, rfl⟩ := mem_matchPair hm
  have hbounds := fuzzyMatchName_score_bounds hns
  have ha₁ := fuzzyMatchAddress_nonneg a (dbLookup db ns.1)
  have ha₂ := fuzzyMatchAddress_le_100 a (dbLookup db ns.1)
  refine ⟨rfl, ?_, ?_⟩
  · have h0 : ((0 : Int) : ℚ) ≤ combinedScore ns.2 (fuzzyMatchAddress a (dbLookup db ns.1)) := by
      unfold combinedScore
      push_cast
      nlinarith [hbounds.1, ha₁]
    have := int_le_round2 0 _ h0
    simpa using this
  · have h100 : combinedScore ns.2 (fuzzyMatchAddress a (dbLookup db ns.1)) ≤ ((100 : Int) : ℚ) := by
      unfold combinedScore
      push_cast
      nlinarith [hbounds.2, ha₂]
    have := round2_le_int 100 _ h100
    simpa using this

/-- Witness for C2 (amended) at a concrete emitted candidate. -/
theorem claim_C2_witness :
    ((⟨1, 100, 400/7, 4143/50, false⟩ : OCR.MatchCandidate).combined_confidence =
      OCR.round2 ((⟨1, 100, 400/7, 4143/50, false⟩ : OCR.MatchCandidate).name_match_score * (6/10) +
        (⟨1, 100, 400/7, 4143/50, false⟩ : OCR.MatchCandidate).address_match_score * (4/10)) ∧
    0 ≤ (⟨1, 100, 400/7, 4143/50, false⟩ : OCR.MatchCandidate).combined_confidence ∧
    (⟨1, 100, 400/7, 4143/50, false⟩ : OCR.MatchCandidate).combined_confidence ≤ 100) :=
  OCR.claim_C2_amended OCR.exDbC2 70 "ab cd" "aaa b" ⟨1, 100, 400/7, 4143/50, false⟩ (by decide)

/-! ### Claim C7 -/

/-- C7: every emitted MatchCandidate has `name_score ≥ threshold` and
`combined_confidence ≥ threshold`, the same configured integer threshold
serving as both bars (rounding to two decimals cannot drop the stored
combined confidence below the integer threshold). -/
theorem claim_C7 (db : List Recipient) (thr : Int) (n a : String)
    (m : MatchCandidate) (hm : m ∈ matchPair db thr n a) :
    (thr : ℚ) ≤ m.name_match_score ∧ (thr : ℚ) ≤ m.combined_confidence := by
  obtain ⟨ns, hns, hcomb, rfl⟩ := mem_matchPair hm
  exact ⟨fuzzyMatchName_score_ge hns, int_le_round2 thr _ hcomb⟩

/-- Witness for C7 at a concrete emitted candidate. -/
theorem claim_C7_witness :
    ((70 : Int) : ℚ) ≤ (⟨1, 100, 400/7, 4143/50, false⟩ : OCR.MatchCandidate).name_match_score ∧
    ((70 : Int) : ℚ) ≤ (⟨1, 100, 400/7, 4143/50, false⟩ : OCR.MatchCandidate).combined_confidence :=
  OCR.claim_C7 OCR.exDbC2 70 "ab cd" "aaa b" ⟨1, 100, 400/7, 4143/50, false⟩ (by decide)

theorem lexBetter_trans {x y z : MatchCandidate} (h₁ : lexBetter x y) (h₂ : lexBetter y z) :
    lexBetter x z := by
  rcases h₁ with h₁ | ⟨h₁e, h₁n⟩ <;> rcases h₂ with h₂ | ⟨h₂e, h₂n⟩
  · exact Or.inl (lt_trans h₂ h₁)
  · exact Or.inl (h₂e ▸ h₁)
  · exact Or.inl (h₁e ▸ h₂)
  · exact Or.inr ⟨h₂e.trans h₁e, le_trans h₂n h₁n⟩

theorem sorted_lex_orderedInsert (x : MatchCandidate) :
    ∀ s : List MatchCandidate, List.Sorted lexBetter s → (∀ y ∈ s, nsGe x y) →
      List.Sorted lexBetter (List.orderedInsert confGe x s) := by
  intro s
  induction s with
  | nil => intro _ _; simp [List.orderedInsert]
  | cons b t ih =>
    intro hs hns
    have hsb := List.sorted_cons.mp hs
    simp only [List.orderedInsert]
    split
    · rename_i hcb
      refine List.sorted_cons.mpr ⟨?_, hs⟩
      intro y hy
      have hxb : lexBetter x b := by
        rcases lt_or_eq_of_le hcb with h | h
        · exact Or.inl h
        · exact Or.inr ⟨h, hns b (by simp)⟩
      rcases List.mem_cons.mp hy with rfl | hyt
      · exact hxb
      · exact lexBetter_trans hxb (hsb.1 y hyt)
    · rename_i hcb
      refine List.sorted_cons.mpr ⟨?_, ?_⟩
      · intro y hy
        rcases (List.mem_orderedInsert confGe).mp hy with rfl | hyt
        · exact Or.inl (lt_of_not_le hcb)
        · exact hsb.1 y hyt
      · exact ih hsb.2 (fun y hy => hns y (by simp [hy]))

theorem sorted_lex_insertionSort :
    ∀ l : List MatchCandidate, l.Pairwise nsGe →
      List.Sorted lexBetter (List.insertionSort confGe l) := by
  intro l
  induction l with
  | nil => intro _; simp
  | cons x l ih =>
    intro hp
    have hpc := List.pairwise_cons.mp hp
    simp only [List.insertionSort]
    apply sorted_lex_orderedInsert x _ (ih hpc.2)
    intro y hy
    exact hpc.1 y ((List.mem_insertionSort _).mp hy)

theorem fuzzyMatchName_sorted (thr : Int) (n : String) (vs : List (String × Nat)) :
    List.Sorted scoreGe (fuzzyMatchName thr n vs) := by
  unfold fuzzyMatchName
  split
  · simp
  · exact List.sorted_insertionSort scoreGe _

/-- C8 (amended): the list returned by `match_pair` is sorted by descending
combined confidence, and candidates with equal combined confidence appear
in descending name-score order (the order of the name-match ranking), not
in original directory order. -/
theorem claim_C8_amended (db : List Recipient) (thr : Int) (n a : String) :
    List.Sorted lexBetter (matchPair db thr n a) := by
  unfold matchPair
  apply sorted_lex_insertionSort
  rw [List.pairwise_map]
  apply List.Pairwise.sublist (List.filter_sublist _)
  have hs := fuzzyMatchName_sorted thr n (createNameVariations db)
  exact hs.imp (fun h => h)

/-- C8 counterexample: two candidates tie at combined confidence 76, but
the output lists recipient 2 (the later directory row, with the higher
name score) before recipient 1 — the tie is NOT broken by original
directory order. -/
theorem claim_C8_counterexample :
    ((OCR.matchPair OCR.exDbC8 70 "ab cde" "pppppppxxx").map
        (fun m => (m.recipient_id, m.combined_confidence)) = [(2, 76), (1, 76)]) ∧
    (OCR.exDbC8.map (fun r => r.recipient_id) = [1, 2]) := by
  decide

/-! ### Claim C9: colliding name-variation keys -/

theorem lowerStr_length (s : String) : (lowerStr s).length = s.length :=
  List.length_map _ _

theorem fullName_ne_lastFirst (f l : String) :
    lowerStr (f ++ " " ++ l) ≠ lowerStr (l ++ ", " ++ f) := by
  intro h
  have hlen := congrArg String.length h
  rw [lowerStr_length, lowerStr_length] at hlen
  simp only [String.length_append] at hlen
  have h1 : (" " : String).length = 1 := rfl
  have h2 : (", " : String).length = 2 := rfl
  omega

theorem variationEntries_eq (r : Recipient)
    (hfne : pstrip r.first_name ≠ "") (hlne : pstrip r.last_name ≠ "")
    (hp : pstrip r.preferred_first_name = "") (hq : pstrip r.preferred_full_name = "") :
    variationEntries r =
      [(lowerStr (pstrip r.first_name ++ " " ++ pstrip r.last_name), r.recipient_id),
       (lowerStr (pstrip r.last_name ++ ", " ++ pstrip r.first_name), r.recipient_id)] := by
  simp only [variationEntries]
  rw [hp, hq]
  simp [hfne, hlne]

theorem applyEntries_two_overwrite (k₁ k₂ : String) (hk : k₁ ≠ k₂) (v₁ v₂ : Nat) :
    applyEntries (applyEntries [] [(k₁, v₁), (k₂, v₁)]) [(k₁, v₂), (k₂, v₂)] =
      [(k₁, v₂), (k₂, v₂)] := by
  have hk' : k₂ ≠ k₁ := Ne.symm hk
  simp [applyEntries, dictSet, hk, hk']

theorem applyEntries_two_fresh (k₁ k₂ : String) (hk : k₁ ≠ k₂) (v : Nat) :
    applyEntries [] [(k₁, v), (k₂, v)] = [(k₁, v), (k₂, v)] := by
  have hk' : k₂ ≠ k₁ := Ne.symm hk
  simp [applyEntries, dictSet, hk, hk']

/-- C9: when two directory recipients produce identical name-variation
keys (same first/last names, no preferred-name fields), the variation dict
keeps only the recipient appearing later in the directory: `match_pair`
behaves exactly as if the earlier recipient were absent, so it can never
return the earlier recipient and never reflects the duplication in
`is_ambiguous`. -/
theorem claim_C9 (r₁ r₂ : Recipient) (thr : Int) (n a : String)
    (hf : r₁.first_name = r₂.first_name) (hl : r₁.last_name = r₂.last_name)
    (hfne : pstrip r₂.first_name ≠ "") (hlne : pstrip r₂.last_name ≠ "")
    (hp₁ : pstrip r₁.preferred_first_name = "") (hp₂ : pstrip r₂.preferred_first_name = "")
    (hq₁ : pstrip r₁.preferred_full_name = "") (hq₂ : pstrip r₂.preferred_full_name = "")
    (hid : r₁.recipient_id ≠ r₂.recipient_id) :
    matchPair [r₁, r₂] thr n a = matchPair [r₂] thr n a ∧
    ∀ m ∈ matchPair [r₁, r₂] thr n a, m.recipient_id = r₂.recipient_id := by
  set k₁ := lowerStr (pstrip r₂.first_name ++ " " ++ pstrip r₂.last_name) with hk₁
  set k₂ := lowerStr (pstrip r₂.last_name ++ ", " ++ pstrip r₂.first_name) with hk₂
  have hk : k₁ ≠ k₂ := fullName_ne_lastFirst _ _
  have hE₁ : variationEntries r₁ = [(k₁, r₁.recipient_id), (k₂, r₁.recipient_id)] := by
    have := variationEntries_eq r₁ (by rw [hf]; exact hfne) (by rw [hl]; exact hlne) hp₁ hq₁
    rw [this, hf, hl]
  have hE₂ : variationEntries r₂ = [(k₁, r₂.recipient_id), (k₂, r₂.recipient_id)] :=
    variationEntries_eq r₂ hfne hlne hp₂ hq₂
  have hV : createNameVariations [r₁, r₂] = [(k₁, r₂.recipient_id), (k₂, r₂.recipient_id)] := by
    unfold createNameVariations
    simp only [List.foldl_cons, List.foldl_nil]
    rw [hE₁, hE₂, applyEntries_two_overwrite k₁ k₂ hk]
  have hV₂ : createNameVariations [r₂] = [(k₁, r₂.recipient_id), (k₂, r₂.recipient_id)] := by
    unfold createNameVariations
    simp only [List.foldl_cons, List.foldl_nil]
    rw [hE₂, applyEntries_two_fresh k₁ k₂ hk]
  have hVeq : createNameVariations [r₁, r₂] = createNameVariations [r₂] := hV.trans hV₂.symm
  have hrid : ∀ x ∈ fuzzyMatchName thr n (createNameVariations [r₁, r₂]),
      x.1 = r₂.recipient_id := by
    intro x hx
    obtain ⟨kv, hkv, _, rfl⟩ := mem_fuzzyMatchName hx
    rw [hV] at hkv
    simp only [List.mem_cons, List.not_mem_nil, or_false] at hkv
    rcases hkv with rfl | rfl <;> rfl
  have hbeq : (r₁.recipient_id == r₂.recipient_id) = false :=
    beq_eq_false_iff_ne.mpr hid
  have hlook : dbLookup [r₁, r₂] r₂.recipient_id = r₂ := by
    simp [dbLookup, List.find?, hbeq]
  have hlook₂ : dbLookup [r₂] r₂.recipient_id = r₂ := by
    simp [dbLookup, List.find?]
  constructor
  · simp only [matchPair]
    rw [hVeq]
    have hrid' : ∀ x ∈ fuzzyMatchName thr n (createNameVariations [r₂]),
        x.1 = r₂.recipient_id := by
      intro x hx; exact hrid x (by rwa [hVeq])
    refine congrArg (List.insertionSort confGe) ?_
    have hfeq : ∀ x ∈ fuzzyMatchName thr n (createNameVariations [r₂]),
        (decide ((thr : ℚ) ≤ combinedScore x.2 (fuzzyMatchAddress a (dbLookup [r₁, r₂] x.1)))) =
        (decide ((thr : ℚ) ≤ combinedScore x.2 (fuzzyMatchAddress a (dbLookup [r₂] x.1)))) := by
      intro x hx
      rw [hrid' x hx, hlook, hlook₂]
    rw [List.filter_congr hfeq]
    apply List.map_congr_left
    intro x hx
    have hx' := (List.mem_filter.mp hx).1
    rw [hrid' x hx', hlook, hlook₂]
  · intro m hm
    obtain ⟨ns, hns, _, rfl⟩ := mem_matchPair hm
    exact hrid ns hns

/-- Witness for C9 at concrete duplicate recipients. -/
theorem claim_C9_witness :
    OCR.matchPair [OCR.exR1, OCR.exR2] 70 "john smith" "1 a st" =
        OCR.matchPair [OCR.exR2] 70 "john smith" "1 a st" ∧
      ∀ m ∈ OCR.matchPair [OCR.exR1, OCR.exR2] 70 "john smith" "1 a st",
        m.recipient_id = OCR.exR2.recipient_id :=
  OCR.claim_C9 OCR.exR1 OCR.exR2 70 "john smith" "1 a st" rfl rfl (by decide) (by decide)
    rfl rfl rfl rfl (by decide)

/-! ### Character-class facts -/

theorem char_not_pyspace {x : Char} (hall : isAllowedChar x = true)
    (hst : isSpaceTab x = false) (hnl : x ≠ '\n') : isPySpace x = false := by
  by_contra hc
  have hps : isPySpace x = true := by
    cases hx : isPySpace x
    · exact absurd hx hc
    · rfl
  simp only [isPySpace, Bool.or_eq_true, beq_iff_eq] at hps
  rcases hps with ((((rfl | rfl) | rfl) | rfl) | rfl) | rfl
  · exact absurd hst (by decide)
  · exact absurd hst (by decide)
  · exact hnl rfl
  · exact absurd hall (by decide)
  · exact absurd hall (by decide)
  · exact absurd hall (by decide)

theorem pyspace_allowed_nl {x : Char} (hps : isPySpace x = true)
    (hall : isAllowedChar x = true) (hst : isSpaceTab x = false) : x = '\n' := by
  by_contra hnl
  rw [char_not_pyspace hall hst hnl] at hps
  exact Bool.false_ne_true hps

/-! ### `dropWhile` / `pstripL` facts -/

theorem head_dropWhile_not (p : Char → Bool) :
    ∀ (l : List Char) (c : Char), (l.dropWhile p).head? = some c → p c = false := by
  intro l
  induction l with
  | nil => intro c h; simp [List.dropWhile] at h
  | cons a rest ih =>
    intro c h
    rw [List.dropWhile_cons] at h
    split at h
    · exact ih c h
    · rename_i hp
      simp only [List.head?_cons, Option.some.injEq] at h
      subst h
      exact Bool.not_eq_true _ ▸ Bool.of_not_eq_true hp

theorem dropWhile_eq_self_of_head (p : Char → Bool) (l : List Char)
    (h : ∀ c ∈ l.head?, p c = false) : l.dropWhile p = l := by
  cases l with
  | nil => rfl
  | cons a rest =>
    rw [List.dropWhile_cons, if_neg]
    simp only [List.head?_cons, Option.mem_def, Option.some.injEq, forall_eq'] at h
    simp [h]

theorem chain'_dropWhile {R : Char → Char → Prop} (p : Char → Bool) :
    ∀ l : List Char, List.Chain' R l → List.Chain' R (l.dropWhile p) := by
  intro l
  induction l with
  | nil => intro h; simpa using h
  | cons a rest ih =>
    intro h
    rw [List.dropWhile_cons]
    split
    · exact ih (List.Chain'.tail h)
    · exact h

theorem rev_drop_rev_append (p : Char → Bool) (A : List Char) :
    A = (A.reverse.dropWhile p).reverse ++ (A.reverse.takeWhile p).reverse := by
  conv_lhs => rw [← List.reverse_reverse A]
  rw [← List.reverse_append, List.takeWhile_append_dropWhile]

theorem pstripL_append_eq (l : List Char) :
    l.dropWhile isPySpace =
      pstripL l ++ ((l.dropWhile isPySpace).reverse.takeWhile isPySpace).reverse := by
  unfold pstripL
  exact rev_drop_rev_append isPySpace (l.dropWhile isPySpace)

theorem mem_pstripL {x : Char} {l : List Char} (h : x ∈ pstripL l) : x ∈ l := by
  unfold pstripL at h
  rw [List.mem_reverse] at h
  have h₂ := (List.dropWhile_sublist _).mem h
  rw [List.mem_reverse] at h₂
  exact (List.dropWhile_sublist _).mem h₂

theorem chain'_reverse_symm {R : Char → Char → Prop} (hsym : ∀ a b, R a b → R b a) :
    ∀ l : List Char, List.Chain' R l → List.Chain' R l.reverse := by
  intro l
  induction l with
  | nil => simp
  | cons a rest ih =>
    intro h
    rw [List.reverse_cons]
    refine List.chain'_append.mpr ⟨ih (List.Chain'.tail h), List.chain'_singleton _, ?_⟩
    intro x hx y hy
    simp only [List.head?_cons, Option.mem_def, Option.some.injEq] at hy
    subst hy
    rw [List.getLast?_reverse] at hx
    exact hsym _ _ ((List.chain'_cons'.mp h).1 x hx)

theorem chain'_pstripL {R : Char → Char → Prop} (hsym : ∀ a b, R a b → R b a)
    {l : List Char} (h : List.Chain' R l) : List.Chain' R (pstripL l) := by
  unfold pstripL
  apply chain'_reverse_symm hsym
  apply chain'_dropWhile
  apply chain'_reverse_symm hsym
  exact chain'_dropWhile _ _ h

theorem pstripL_head {l : List Char} {c : Char} (h : (pstripL l).head? = some c) :
    isPySpace c = false := by
  have happ := pstripL_append_eq l
  have hh : (l.dropWhile isPySpace).head? = some c := by
    rw [happ]
    cases hps : pstripL l with
    | nil => rw [hps] at h; simp at h
    | cons d t =>
      rw [hps] at h
      simp only [List.head?_cons, Option.some.injEq] at h
      subst h
      simp
  exact head_dropWhile_not _ _ _ hh

theorem pstripL_last {l : List Char} {c : Char} (h : (pstripL l).getLast? = some c) :
    isPySpace c = false := by
  unfold pstripL at h
  rw [List.getLast?_reverse] at h
  exact head_dropWhile_not _ _ _ h

theorem pstripL_eq_self {l : List Char} (h₁ : headOk l) (h₂ : lastOk l) : pstripL l = l := by
  unfold pstripL
  rw [dropWhile_eq_self_of_head _ _ h₁]
  have : l.reverse.dropWhile isPySpace = l.reverse := by
    apply dropWhile_eq_self_of_head
    intro c hc
    rw [List.head?_reverse] at hc
    exact h₂ c hc
  rw [this, List.reverse_reverse]

/-! ### `squash` facts -/

theorem squash_cons_head (c : Char) :
    ∀ (xs : List Char) (x : Char), ∃ ys, squash c (x :: xs) = x :: ys := by
  intro xs
  induction xs with
  | nil => intro x; exact ⟨[], rfl⟩
  | cons b rest ih =>
    intro x
    by_cases h : x = c ∧ b = c
    · obtain ⟨ys, hys⟩ := ih b
      refine ⟨ys, ?_⟩
      have hstep : squash c (x :: b :: rest) = squash c (b :: rest) := by
        simp only [squash, if_pos h]
      rw [hstep, hys, h.1.trans h.2.symm]
    · exact ⟨squash c (b :: rest), by simp only [squash, if_neg h]⟩

theorem squash_sublist (c : Char) : ∀ l : List Char, List.Sublist (squash c l) l := by
  intro l
  induction l with
  | nil => simp [squash]
  | cons a rest ih =>
    cases rest with
    | nil => simp [squash]
    | cons b t =>
      simp only [squash]
      split
      · exact ih.trans (List.sublist_cons_self _ _)
      · exact ih.cons₂ a

theorem chain'_squash_noPair (c : Char) :
    ∀ l : List Char, List.Chain' (noPair c) (squash c l) := by
  intro l
  induction l with
  | nil => simp [squash]
  | cons a rest ih =>
    cases rest with
    | nil => simp [squash]
    | cons b t =>
      simp only [squash]
      split
      · exact ih
      · rename_i h
        obtain ⟨ys, hys⟩ := squash_cons_head c t b
        rw [hys]
        rw [hys] at ih
        exact List.chain'_cons.mpr ⟨h, ih⟩

theorem chain'_squash_preserve {R : Char → Char → Prop} (c : Char) :
    ∀ l : List Char, List.Chain' R l → List.Chain' R (squash c l) := by
  intro l
  induction l with
  | nil => intro h; simpa [squash] using h
  | cons a rest ih =>
    intro h
    cases rest with
    | nil => simpa [squash] using h
    | cons b t =>
      simp only [squash]
      have hc := List.chain'_cons.mp h
      split
      · exact ih hc.2
      · obtain ⟨ys, hys⟩ := squash_cons_head c t b
        rw [hys]
        have := ih hc.2
        rw [hys] at this
        exact List.chain'_cons.mpr ⟨hc.1, this⟩

theorem squash_eq_self (c : Char) :
    ∀ l : List Char, List.Chain' (noPair c) l → squash c l = l := by
  intro l
  induction l with
  | nil => intro _; rfl
  | cons a rest ih =>
    intro h
    cases rest with
    | nil => rfl
    | cons b t =>
      have hc := List.chain'_cons.mp h
      simp only [squash, if_neg hc.1]
      rw [ih hc.2]

/-! ### `splitNl` / `stripLines` facts -/

theorem splitNl_ne_nil : ∀ l : List Char, splitNl l ≠ [] := by
  intro l
  cases l with
  | nil => simp [splitNl]
  | cons c rest =>
    simp only [splitNl]
    split
    · simp
    · split <;> simp

theorem splitNl_no_nl : ∀ {l : List Char}, '\n' ∉ l → splitNl l = [l] := by
  intro l
  induction l with
  | nil => intro _; rfl
  | cons c rest ih =>
    intro h
    have hc : ¬c = '\n' := fun hcc => h (by simp [hcc])
    have hr : '\n' ∉ rest := fun hm => h (by simp [hm])
    simp only [splitNl, if_neg hc, ih hr]

theorem splitNl_pre : ∀ {pre rest : List Char}, '\n' ∉ pre →
    splitNl (pre ++ '\n' :: rest) = pre :: splitNl rest := by
  intro pre
  induction pre with
  | nil => intro rest _; simp [splitNl]
  | cons c p ih =>
    intro rest h
    have hc : ¬c = '\n' := fun hcc => h (by simp [hcc])
    have hp : '\n' ∉ p := fun hm => h (by simp [hm])
    have hstep : (c :: p) ++ '\n' :: rest = c :: (p ++ '\n' :: rest) := rfl
    rw [hstep]
    simp only [splitNl, if_neg hc]
    rw [ih hp]

theorem joinNl_cons {l : List Char} {ls : List (List Char)} (h : ls ≠ []) :
    joinNl (l :: ls) = l ++ '\n' :: joinNl ls := by
  cases ls with
  | nil => exact absurd rfl h
  | cons m ms => rfl

theorem nl_decomp : ∀ l : List Char, '\n' ∈ l →
    ∃ pre rest, l = pre ++ '\n' :: rest ∧ '\n' ∉ pre := by
  intro l
  induction l with
  | nil => intro h; simpa using h
  | cons c rest ih =>
    intro h
    by_cases hc : c = '\n'
    · exact ⟨[], rest, by rw [hc]; rfl, by simp⟩
    · have hr : '\n' ∈ rest := by
        rcases List.mem_cons.mp h with h₁ | h₁
        · exact absurd h₁.symm hc
        · exact h₁
      obtain ⟨pre, rest', heq, hpre⟩ := ih hr
      refine ⟨c :: pre, rest', by rw [List.cons_append, ← heq], ?_⟩
      intro hm
      rcases List.mem_cons.mp hm with h₁ | h₁
      · exact hc h₁.symm
      · exact hpre h₁

theorem stripLines_nil : stripLines [] = [] := rfl

theorem stripLines_no_nl {l : List Char} (h : '\n' ∉ l) : stripLines l = pstripL l := by
  unfold stripLines
  rw [splitNl_no_nl h]
  rfl

theorem stripLines_split {pre rest : List Char} (h : '\n' ∉ pre) :
    stripLines (pre ++ '\n' :: rest) = pstripL pre ++ '\n' :: stripLines rest := by
  unfold stripLines
  rw [splitNl_pre h, List.map_cons]
  have hne : (splitNl rest).map pstripL ≠ [] := by
    intro hx
    exact splitNl_ne_nil rest (List.map_eq_nil_iff.mp hx)
  rw [joinNl_cons hne]

theorem st_pyspace {x : Char} (h : isSpaceTab x = true) : isPySpace x = true := by
  simp only [isSpaceTab, Bool.or_eq_true, beq_iff_eq] at h
  rcases h with rfl | rfl <;> rfl

theorem chain'_wsNlOk_no_nl : ∀ m : List Char, '\n' ∉ m → List.Chain' wsNlOk m := by
  intro m
  induction m with
  | nil => intro _; simp
  | cons a rest ih =>
    intro h
    have ha : a ≠ '\n' := fun hcc => h (by simp [hcc])
    have hr : '\n' ∉ rest := fun hm => h (by simp [hm])
    refine List.chain'_cons'.mpr ⟨?_, ih hr⟩
    intro y _
    exact ⟨fun hy => ha hy.1, fun hy => absurd hy.2 (by
      intro hyy
      have : '\n' ∈ rest := by
        cases rest with
        | nil => simp at *
        | cons b t =>
          rename_i hyh
          simp only [List.head?_cons, Option.mem_def, Option.some.injEq] at hyh
          subst hyh
          simp [hyy]
      exact hr this)⟩

theorem wsNlOk_left_nl {y : Char} (h : isSpaceTab y = false) : wsNlOk '\n' y :=
  ⟨fun hy => by rw [h] at hy; exact Bool.false_ne_true hy.2, fun hy => by simp [isSpaceTab] at hy⟩

theorem wsNlOk_right_nl {x : Char} (h : isSpaceTab x = false) : wsNlOk x '\n' :=
  ⟨fun hy => by simp [isSpaceTab] at hy, fun hy => by rw [h] at hy; exact Bool.false_ne_true hy.1⟩

theorem stripLines_mem : ∀ (n : Nat) (l : List Char), l.length ≤ n →
    ∀ x ∈ stripLines l, x ∈ l ∨ x = '\n' := by
  intro n
  induction n with
  | zero =>
    intro l hlen x hx
    have hl : l = [] := List.length_eq_zero.mp (Nat.le_zero.mp hlen)
    subst hl
    rw [stripLines_nil] at hx
    simp at hx
  | succ n ih =>
    intro l hlen x hx
    by_cases hnl : '\n' ∈ l
    · obtain ⟨pre, rest, rfl, hpre⟩ := nl_decomp l hnl
      rw [stripLines_split hpre] at hx
      have hrlen : rest.length ≤ n := by
        simp only [List.length_append, List.length_cons] at hlen
        omega
      rcases List.mem_append.mp hx with h₁ | h₁
      · exact Or.inl (List.mem_append.mpr (Or.inl (mem_pstripL h₁)))
      · rcases List.mem_cons.mp h₁ with rfl | h₂
        · exact Or.inr rfl
        · rcases ih rest hrlen x h₂ with h₃ | h₃
          · exact Or.inl (by simp [h₃])
          · exact Or.inr h₃
    · rw [stripLines_no_nl hnl] at hx
      exact Or.inl (mem_pstripL hx)

theorem stripLines_head : ∀ (n : Nat) (l : List Char), l.length ≤ n →
    ∀ c ∈ (stripLines l).head?, isPySpace c = false ∨ c = '\n' := by
  intro n
  induction n with
  | zero =>
    intro l hlen c hc
    have hl : l = [] := List.length_eq_zero.mp (Nat.le_zero.mp hlen)
    subst hl
    rw [stripLines_nil] at hc
    simp at hc
  | succ n _ =>
    intro l _ c hc
    by_cases hnl : '\n' ∈ l
    · obtain ⟨pre, rest, rfl, hpre⟩ := nl_decomp l hnl
      rw [stripLines_split hpre] at hc
      cases hA : pstripL pre with
      | nil =>
        rw [hA] at hc
        simp only [List.nil_append, List.head?_cons, Option.mem_def, Option.some.injEq] at hc
        exact Or.inr hc.symm
      | cons d t =>
        rw [hA] at hc
        simp only [List.cons_append, List.head?_cons, Option.mem_def, Option.some.injEq] at hc
        subst hc
        exact Or.inl (pstripL_head (by rw [hA]; rfl))
    · rw [stripLines_no_nl hnl] at hc
      exact Or.inl (pstripL_head hc)

theorem getLast?_cons_ne {a : Char} {l : List Char} (h : l ≠ []) :
    (a :: l).getLast? = l.getLast? := by
  cases l with
  | nil => exact absurd rfl h
  | cons b t => exact List.getLast?_cons_cons

theorem getLast?_append_cons (A : List Char) (y : Char) (B : List Char) :
    (A ++ y :: B).getLast? = (y :: B).getLast? := by
  induction A with
  | nil => rfl
  | cons a t ih =>
    rw [List.cons_append, getLast?_cons_ne, ih]
    intro hx
    exact List.append_ne_nil_of_right_ne_nil t (by simp) hx

theorem stripLines_last : ∀ (n : Nat) (l : List Char), l.length ≤ n →
    ∀ c ∈ (stripLines l).getLast?, isPySpace c = false ∨ c = '\n' := by
  intro n
  induction n with
  | zero =>
    intro l hlen c hc
    have hl : l = [] := List.length_eq_zero.mp (Nat.le_zero.mp hlen)
    subst hl
    rw [stripLines_nil] at hc
    simp at hc
  | succ n ih =>
    intro l hlen c hc
    by_cases hnl : '\n' ∈ l
    · obtain ⟨pre, rest, rfl, hpre⟩ := nl_decomp l hnl
      have hrlen : rest.length ≤ n := by
        simp only [List.length_append, List.length_cons] at hlen
        omega
      rw [stripLines_split hpre, getLast?_append_cons] at hc
      cases hB : stripLines rest with
      | nil =>
        rw [hB] at hc
        simp only [List.getLast?_singleton, Option.mem_def, Option.some.injEq] at hc
        exact Or.inr hc.symm
      | cons d t =>
        rw [hB, getLast?_cons_ne (by simp)] at hc
        rw [← hB] at hc
        exact ih rest hrlen c hc
    · rw [stripLines_no_nl hnl] at hc
      exact Or.inl (pstripL_last hc)

theorem stripLines_chain {R : Char → Char → Prop} (hsym : ∀ a b, R a b → R b a)
    (hnl₁ : ∀ x, R x '\n') (hnl₂ : ∀ y, R '\n' y) :
    ∀ (n : Nat) (l : List Char), l.length ≤ n → List.Chain' R l →
      List.Chain' R (stripLines l) := by
  intro n
  induction n with
  | zero =>
    intro l hlen _
    have hl : l = [] := List.length_eq_zero.mp (Nat.le_zero.mp hlen)
    subst hl
    rw [stripLines_nil]
    simp
  | succ n ih =>
    intro l hlen hchain
    by_cases hnl : '\n' ∈ l
    · obtain ⟨pre, rest, rfl, hpre⟩ := nl_decomp l hnl
      have hrlen : rest.length ≤ n := by
        simp only [List.length_append, List.length_cons] at hlen
        omega
      have hparts := List.chain'_append.mp hchain
      rw [stripLines_split hpre]
      refine List.chain'_append.mpr ⟨chain'_pstripL hsym hparts.1, ?_, ?_⟩
      · refine List.chain'_cons'.mpr ⟨fun y _ => hnl₂ y, ?_⟩
        exact ih rest hrlen (List.Chain'.tail hparts.2.1)
      · intro x _ y hy
        simp only [List.head?_cons, Option.mem_def, Option.some.injEq] at hy
        subst hy
        exact hnl₁ x
    · rw [stripLines_no_nl hnl]
      exact chain'_pstripL hsym hchain

theorem stripLines_wsNlOk : ∀ (n : Nat) (l : List Char), l.length ≤ n →
    List.Chain' wsNlOk (stripLines l) := by
  intro n
  induction n with
  | zero =>
    intro l hlen
    have hl : l = [] := List.length_eq_zero.mp (Nat.le_zero.mp hlen)
    subst hl
    rw [stripLines_nil]
    simp
  | succ n ih =>
    intro l hlen
    by_cases hnl : '\n' ∈ l
    · obtain ⟨pre, rest, rfl, hpre⟩ := nl_decomp l hnl
      have hrlen : rest.length ≤ n := by
        simp only [List.length_append, List.length_cons] at hlen
        omega
      rw [stripLines_split hpre]
      refine List.chain'_append.mpr ⟨?_, ?_, ?_⟩
      · refine chain'_wsNlOk_no_nl _ ?_
        intro hm
        exact hpre (mem_pstripL hm)
      · refine List.chain'_cons'.mpr ⟨?_, ih rest hrlen⟩
        intro y hy
        rcases stripLines_head (rest.length) rest le_rfl y hy with h₁ | h₁
        · refine wsNlOk_left_nl ?_
          cases hst : isSpaceTab y
          · rfl
          · rw [st_pyspace hst] at h₁; exact absurd h₁ (by decide)
        · subst h₁
          exact wsNlOk_left_nl (by decide)
      · intro x hx y hy
        simp only [List.head?_cons, Option.mem_def, Option.some.injEq] at hy
        subst hy
        refine wsNlOk_right_nl ?_
        have := pstripL_last hx
        cases hst : isSpaceTab x
        · rfl
        · rw [st_pyspace hst] at this; exact absurd this (by decide)
    · rw [stripLines_no_nl hnl]
      refine chain'_wsNlOk_no_nl _ ?_
      intro hm
      exact hnl (mem_pstripL hm)

theorem head?_append_cons_nil (y : Char) (B : List Char) :
    (([] : List Char) ++ y :: B).head? = some y := rfl

theorem stripLines_eq_self : ∀ (n : Nat) (l : List Char), l.length ≤ n →
    (∀ x ∈ l, isAllowedChar x = true) → List.Chain' (noPair '\n') l →
    List.Chain' wsNlOk l → headOk l → lastOk l → stripLines l = l := by
  intro n
  induction n with
  | zero =>
    intro l hlen _ _ _ _ _
    have hl : l = [] := List.length_eq_zero.mp (Nat.le_zero.mp hlen)
    subst hl
    exact stripLines_nil
  | succ n ih =>
    intro l hlen hall hchain₂ hchain₃ hhead hlast
    by_cases hnl : '\n' ∈ l
    · obtain ⟨pre, rest, rfl, hpre⟩ := nl_decomp l hnl
      have hrlen : rest.length ≤ n := by
        simp only [List.length_append, List.length_cons] at hlen
        omega
      have hpre_ne : pre ≠ [] := by
        intro hp
        subst hp
        have := hhead '\n' rfl
        exact absurd this (by decide)
      have hrest_ne : rest ≠ [] := by
        intro hr
        subst hr
        have hgl : (pre ++ ['\n']).getLast? = some '\n' := by
          rw [getLast?_append_cons]
          rfl
        have := hlast '\n' hgl
        exact absurd this (by decide)
      have hparts₂ := List.chain'_append.mp hchain₂
      have hparts₃ := List.chain'_append.mp hchain₃
      rw [stripLines_split hpre]
      have hpre_fix : pstripL pre = pre := by
        apply pstripL_eq_self
        · intro c hc
          apply hhead
          cases pre with
          | nil => exact absurd rfl hpre_ne
          | cons d t => exact hc
        · intro c hc
          -- c is the character just before the '\n'
          have hR₂ := hparts₂.2.2 c hc '\n' rfl
          have hR₃ := hparts₃.2.2 c hc '\n' rfl
          have hcmem : c ∈ pre := List.mem_of_getLast?_eq_some hc
          refine char_not_pyspace (hall c (by simp [hcmem])) ?_ ?_
          · cases hst : isSpaceTab c
            · rfl
            · exact absurd ⟨hst, rfl⟩ hR₃.2
          · intro hcc
            exact hR₂ ⟨hcc, rfl⟩
      rw [hpre_fix]
      have hrest_head : headOk rest := by
        intro c hc
        have hy : c ∈ ('\n' :: rest).head?.bind (fun _ => rest.head?) := by simp [hc]
        have hR₂ := List.chain'_cons'.mp hparts₂.2.1
        have hR₃ := List.chain'_cons'.mp hparts₃.2.1
        have h₂ := hR₂.1 c hc
        have h₃ := hR₃.1 c hc
        have hcmem : c ∈ rest := List.mem_of_mem_head? hc
        refine char_not_pyspace (hall c (by simp [hcmem])) ?_ ?_
        · cases hst : isSpaceTab c
          · rfl
          · exact absurd ⟨rfl, hst⟩ h₃.1
        · intro hcc
          exact h₂ ⟨rfl, hcc⟩
      have hrest_last : lastOk rest := by
        intro c hc
        apply hlast
        rw [getLast?_append_cons, getLast?_cons_ne hrest_ne]
        exact hc
      have hrest_all : ∀ x ∈ rest, isAllowedChar x = true := by
        intro x hx
        exact hall x (by simp [hx])
      rw [ih rest hrlen hrest_all (List.Chain'.tail hparts₂.2.1) (List.Chain'.tail hparts₃.2.1)
        hrest_head hrest_last]
    · rw [stripLines_no_nl hnl]
      exact pstripL_eq_self hhead hlast

/-! ### `subBlank` facts -/

theorem subBlankF_nil : ∀ f : Nat, subBlankF f [] = [] := by
  intro f
  cases f <;> rfl

theorem subBlankF_cons_nl (f : Nat) (rest : List Char) :
    subBlankF (f + 1) ('\n' :: rest) =
      match lastNlIdx (rest.takeWhile isPySpace) with
      | some i => '\n' :: subBlankF f (rest.drop (i + 1))
      | none => '\n' :: subBlankF f rest := by
  simp [subBlankF]

theorem subBlankF_cons_other (f : Nat) (c : Char) (rest : List Char) (h : ¬c = '\n') :
    subBlankF (f + 1) (c :: rest) = c :: subBlankF f rest := by
  simp [subBlankF, h]

theorem takeWhile_nil_of_head (p : Char → Bool) (l : List Char)
    (h : ∀ c ∈ l.head?, p c = false) : l.takeWhile p = [] := by
  cases l with
  | nil => rfl
  | cons a rest => simp [List.takeWhile_cons, h a rfl]

theorem run_all_nl : ∀ rest : List Char, List.Chain' wsNlOk ('\n' :: rest) →
    (∀ x ∈ rest, isAllowedChar x = true) →
    ∀ x ∈ rest.takeWhile isPySpace, x = '\n' := by
  intro rest
  induction rest with
  | nil => intro _ _ x hx; simp at hx
  | cons d rest' ih =>
    intro hchain hall x hx
    rw [List.takeWhile_cons] at hx
    split at hx
    · rename_i hd
      have hwd : wsNlOk '\n' d := (List.chain'_cons'.mp hchain).1 d rfl
      have hst : isSpaceTab d = false := by
        cases hs : isSpaceTab d
        · rfl
        · exact absurd ⟨rfl, hs⟩ hwd.1
      have hdn : d = '\n' := pyspace_allowed_nl hd (hall d (by simp)) hst
      rcases List.mem_cons.mp hx with rfl | hx'
      · exact hdn
      · refine ih ?_ (fun y hy => hall y (by simp [hy])) x hx'
        subst hdn
        exact List.Chain'.tail hchain
    · simp at hx

theorem subBlankF_eq_self : ∀ (f : Nat) (l : List Char),
    List.Chain' (noPair '\n') l → List.Chain' wsNlOk l →
    (∀ x ∈ l, isAllowedChar x = true) → subBlankF f l = l := by
  intro f
  induction f with
  | zero => intro l _ _ _; rfl
  | succ f ih =>
    intro l h₂ h₃ hall
    cases l with
    | nil => rfl
    | cons c rest =>
      by_cases hc : c = '\n'
      · subst hc
        have hrun : rest.takeWhile isPySpace = [] := by
          apply takeWhile_nil_of_head
          intro d hd
          have hne : d ≠ '\n' := by
            intro hdd
            subst hdd
            exact (List.chain'_cons'.mp h₂).1 '\n' hd ⟨rfl, rfl⟩
          have hwd : wsNlOk '\n' d := (List.chain'_cons'.mp h₃).1 d hd
          have hst : isSpaceTab d = false := by
            cases hs : isSpaceTab d
            · rfl
            · exact absurd ⟨rfl, hs⟩ hwd.1
          exact char_not_pyspace (hall d (by simp [List.mem_of_mem_head? hd])) hst hne
        rw [subBlankF_cons_nl, hrun]
        show '\n' :: subBlankF f rest = '\n' :: rest
        rw [ih rest (List.Chain'.tail h₂) (List.Chain'.tail h₃)
          (fun y hy => hall y (by simp [hy]))]
      · rw [subBlankF_cons_other f c rest hc]
        rw [ih rest (List.Chain'.tail h₂) (List.Chain'.tail h₃)
          (fun y hy => hall y (by simp [hy]))]

theorem squash_cons₂ (c a b : Char) (rest : List Char) :
    squash c (a :: b :: rest) =
      if a = c ∧ b = c then squash c (b :: rest) else a :: squash c (b :: rest) := rfl

theorem lastNlIdx_cons (c : Char) (rest : List Char) :
    lastNlIdx (c :: rest) =
      match lastNlIdx rest with
      | some i => some (i + 1)
      | none => if c = '\n' then some 0 else none := rfl

theorem lastNlIdx_replicate : ∀ k : Nat, lastNlIdx (List.replicate (k + 1) '\n') = some k := by
  intro k
  induction k with
  | zero => rfl
  | succ k ih =>
    show lastNlIdx ('\n' :: List.replicate (k + 1) '\n') = some (k + 1)
    rw [lastNlIdx_cons, ih]

theorem squash_nl_run : ∀ (k : Nat) (after : List Char),
    (∀ d ∈ after.head?, ¬d = '\n') →
    squash '\n' ('\n' :: (List.replicate k '\n' ++ after)) = '\n' :: squash '\n' after := by
  intro k
  induction k with
  | zero =>
    intro after h
    cases after with
    | nil => rfl
    | cons d t =>
      have hcond : ¬(('\n' : Char) = '\n' ∧ d = '\n') := fun hh => h d rfl hh.2
      show squash '\n' ('\n' :: d :: t) = '\n' :: squash '\n' (d :: t)
      rw [squash_cons₂, if_neg hcond]
  | succ k ih =>
    intro after h
    rw [List.replicate_succ, List.cons_append]
    show squash '\n' ('\n' :: '\n' :: (List.replicate k '\n' ++ after)) = _
    rw [squash_cons₂, if_pos (And.intro rfl rfl), ih after h]

theorem subBlankF_eq_squash : ∀ (f : Nat) (l : List Char), l.length ≤ f →
    List.Chain' wsNlOk l → (∀ x ∈ l, isAllowedChar x = true) →
    subBlankF f l = squash '\n' l := by
  intro f
  induction f with
  | zero =>
    intro l hlen _ _
    have hl : l = [] := List.length_eq_zero.mp (Nat.le_zero.mp hlen)
    subst hl
    rfl
  | succ f ih =>
    intro l hlen hchain hall
    cases l with
    | nil => rfl
    | cons c rest =>
      have hrestlen : rest.length ≤ f := by
        simp only [List.length_cons] at hlen
        omega
      have hrestall : ∀ x ∈ rest, isAllowedChar x = true := fun y hy => hall y (by simp [hy])
      by_cases hc : c = '\n'
      · subst hc
        have hallrun : ∀ x ∈ rest.takeWhile isPySpace, x = '\n' :=
          run_all_nl rest hchain hrestall
        have hafter_head : ∀ d ∈ (rest.dropWhile isPySpace).head?, ¬d = '\n' := by
          intro d hd hdd
          subst hdd
          have := head_dropWhile_not isPySpace rest '\n' hd
          exact absurd this (by decide)
        have hdecomp : rest.takeWhile isPySpace ++ rest.dropWhile isPySpace = rest :=
          List.takeWhile_append_dropWhile _ _
        cases hk : rest.takeWhile isPySpace with
        | nil =>
          rw [subBlankF_cons_nl, hk]
          show '\n' :: subBlankF f rest = squash '\n' ('\n' :: rest)
          have hresthead : ∀ d ∈ rest.head?, ¬d = '\n' := by
            intro d hd hdd
            have : d ∈ rest.takeWhile isPySpace := by
              cases rest with
              | nil => simp at hd
              | cons e t =>
                simp only [List.head?_cons, Option.mem_def, Option.some.injEq] at hd
                subst hd
                rw [List.takeWhile_cons, if_pos (by rw [hdd]; rfl)]
                simp
            rw [hk] at this
            simp at this
          cases rest with
          | nil =>
            rw [subBlankF_nil f]
            rfl
          | cons d t =>
            have hcond : ¬(('\n' : Char) = '\n' ∧ d = '\n') :=
              fun hh => hresthead d rfl hh.2
            rw [squash_cons₂, if_neg hcond, ih (d :: t) hrestlen (List.Chain'.tail hchain)
              hrestall]
        | cons r rs =>
          have hrep : rest.takeWhile isPySpace =
              List.replicate (rest.takeWhile isPySpace).length '\n' :=
            List.eq_replicate_of_mem hallrun
          have hklen : (rest.takeWhile isPySpace).length = rs.length + 1 := by
            rw [hk]
            rfl
          have hidx : lastNlIdx (rest.takeWhile isPySpace) = some rs.length := by
            rw [hrep, hklen]
            exact lastNlIdx_replicate rs.length
          rw [subBlankF_cons_nl, hidx]
          have hdrop : rest.drop (rs.length + 1) = rest.dropWhile isPySpace := by
            conv_lhs => rw [← hdecomp]
            exact List.drop_left' (by rw [hklen])
          show '\n' :: subBlankF f (rest.drop (rs.length + 1)) = squash '\n' ('\n' :: rest)
          rw [hdrop]
          have hrw : ('\n' :: rest) =
              ('\n' :: (List.replicate (rs.length + 1) '\n' ++ rest.dropWhile isPySpace)) := by
            rw [← hklen, ← hrep, hdecomp]
          have hafterlen : (rest.dropWhile isPySpace).length ≤ f :=
            le_trans (List.Sublist.length_le (List.dropWhile_sublist _)) hrestlen
          have hafterchain : List.Chain' wsNlOk (rest.dropWhile isPySpace) :=
            chain'_dropWhile _ _ (List.Chain'.tail hchain)
          have hafterall : ∀ x ∈ rest.dropWhile isPySpace, isAllowedChar x = true :=
            fun y hy => hrestall y ((List.dropWhile_sublist _).mem hy)
          rw [hrw, squash_nl_run (rs.length + 1) _ hafter_head]
          rw [ih _ hafterlen hafterchain hafterall]
      · rw [subBlankF_cons_other f c rest hc]
        cases rest with
        | nil =>
          rw [subBlankF_nil]
          rfl
        | cons d t =>
          have hcond : ¬(c = '\n' ∧ d = '\n') := fun hh => hc hh.1
          rw [squash_cons₂, if_neg hcond, ih (d :: t) hrestlen (List.Chain'.tail hchain)
            hrestall]

/-! ### `clean_ocr_text`: normal form and idempotence (claims C5, C6) -/

theorem noPair_symm (c : Char) : ∀ a b, noPair c a b → noPair c b a :=
  fun _ _ h hh => h ⟨hh.2, hh.1⟩

theorem wsNlOk_symm : ∀ a b, wsNlOk a b → wsNlOk b a :=
  fun _ _ h => ⟨fun hh => h.2 ⟨hh.2, hh.1⟩, fun hh => h.1 ⟨hh.2, hh.1⟩⟩

theorem noPair_space_nl_right (x : Char) : noPair ' ' x '\n' :=
  fun hh => absurd hh.2 (by decide)

theorem noPair_space_nl_left (y : Char) : noPair ' ' '\n' y :=
  fun hh => absurd hh.1 (by decide)

theorem cleanShape_cleanData (l : List Char) : cleanShape (cleanData l) := by
  unfold cleanData
  have h₁all : ∀ x ∈ l.filter isAllowedChar, isAllowedChar x = true :=
    fun x hx => (List.mem_filter.mp hx).2
  have h₂all : ∀ x ∈ squash ' ' (l.filter isAllowedChar), isAllowedChar x = true :=
    fun x hx => h₁all x ((squash_sublist ' ' _).mem hx)
  have h₃all : ∀ x ∈ squash '\n' (squash ' ' (l.filter isAllowedChar)),
      isAllowedChar x = true :=
    fun x hx => h₂all x ((squash_sublist '\n' _).mem hx)
  have h₂P1 : List.Chain' (noPair ' ') (squash ' ' (l.filter isAllowedChar)) :=
    chain'_squash_noPair ' ' _
  have h₃P1 : List.Chain' (noPair ' ') (squash '\n' (squash ' ' (l.filter isAllowedChar))) :=
    chain'_squash_preserve '\n' _ h₂P1
  have h₄all : ∀ x ∈ stripLines (squash '\n' (squash ' ' (l.filter isAllowedChar))),
      isAllowedChar x = true := by
    intro x hx
    rcases stripLines_mem _ _ le_rfl x hx with h | h
    · exact h₃all x h
    · subst h; rfl
  have h₄P1 : List.Chain' (noPair ' ')
      (stripLines (squash '\n' (squash ' ' (l.filter isAllowedChar)))) :=
    stripLines_chain (noPair_symm ' ') noPair_space_nl_right noPair_space_nl_left _ _ le_rfl h₃P1
  have h₄P3 : List.Chain' wsNlOk
      (stripLines (squash '\n' (squash ' ' (l.filter isAllowedChar)))) :=
    stripLines_wsNlOk _ _ le_rfl
  have h₅eq : subBlank (stripLines (squash '\n' (squash ' ' (l.filter isAllowedChar)))) =
      squash '\n' (stripLines (squash '\n' (squash ' ' (l.filter isAllowedChar)))) :=
    subBlankF_eq_squash _ _ le_rfl h₄P3 h₄all
  rw [h₅eq]
  have h₅all : ∀ x ∈ squash '\n' (stripLines (squash '\n' (squash ' ' (l.filter isAllowedChar)))),
      isAllowedChar x = true :=
    fun x hx => h₄all x ((squash_sublist '\n' _).mem hx)
  have h₅P1 := chain'_squash_preserve '\n' _ h₄P1
  have h₅P2 := chain'_squash_noPair '\n'
    (stripLines (squash '\n' (squash ' ' (l.filter isAllowedChar))))
  have h₅P3 := chain'_squash_preserve '\n' _ h₄P3
  refine ⟨?_, ?_, ?_, ?_, ?_, ?_⟩
  · intro x hx
    exact h₅all x (mem_pstripL hx)
  · exact chain'_pstripL (noPair_symm ' ') h₅P1
  · exact chain'_pstripL (noPair_symm '\n') h₅P2
  · exact chain'_pstripL wsNlOk_symm h₅P3
  · intro c hc
    exact pstripL_head hc
  · intro c hc
    exact pstripL_last hc

theorem cleanData_eq_self {l : List Char} (h : cleanShape l) : cleanData l = l := by
  obtain ⟨hall, hP1, hP2, hP3, hhead, hlast⟩ := h
  unfold cleanData
  rw [List.filter_eq_self.mpr hall, squash_eq_self ' ' l hP1, squash_eq_self '\n' l hP2,
    stripLines_eq_self l.length l le_rfl hall hP2 hP3 hhead hlast]
  have hsb : subBlank l = l := subBlankF_eq_self l.length l hP2 hP3 hall
  rw [hsb]
  exact pstripL_eq_self hhead hlast

/-- C6: for every input string, `clean_ocr_text`'s output contains only
printable ASCII plus newline and tab (`cleanShape`'s first component), has
single spaces between words (no two adjacent spaces) and single newlines
between lines (no two adjacent newlines), has no whitespace adjacent to a
newline — hence no blank lines and no whitespace at either end of any
line — and has no leading or trailing whitespace overall. -/
theorem claim_C6 (t : String) : cleanShape ((cleanOcrText t).data) := by
  unfold cleanOcrText
  split
  · show cleanShape ("" : String).data
    refine ⟨?_, ?_, ?_, ?_, ?_, ?_⟩ <;> simp [headOk, lastOk]
  · exact cleanShape_cleanData t.data

/-- C5: the text normalizer is idempotent — cleaning an already-cleaned
string returns it unchanged. -/
theorem claim_C5 (t : String) : cleanOcrText (cleanOcrText t) = cleanOcrText t := by
  by_cases h : t = ""
  · subst h
    rfl
  · have h₁ : cleanOcrText t = ⟨cleanData t.data⟩ := by rw [cleanOcrText, if_neg h]
    by_cases h₂ : cleanOcrText t = ""
    · rw [h₂]
      rfl
    · rw [h₁, cleanOcrText, if_neg (by rw [← h₁]; exact h₂)]
      exact congrArg String.mk (cleanData_eq_self (cleanShape_cleanData t.data))

/-- C3 counterexample: on the empty input the cleaned text is empty and
`process_single_label` returns status "error" (message
"Empty text after preprocessing") although the extractor — here one that
always returns normally with an empty list — was never invoked and
nothing raised. -/
theorem claim_C3_counterexample :
    (OCR.processSingleLabel "" (fun _ => Except.ok []) [] 70).status = "error" ∧
    (∀ s : String,
      (fun _ : String => (Except.ok [] : Except String (List OCR.Pair))) s =
        (Except.ok [] : Except String (List OCR.Pair))) :=
  ⟨rfl, fun _ => rfl⟩

/-- C3 (amended): the result status is "error" iff the cleaned text is
empty after preprocessing or extraction raised; when the cleaned text is
nonempty and extraction returns normally (even with empty results), the
status is never "error". -/
theorem claim_C3_amended (ocrText : String) (extractor : String → Except String (List Pair))
    (db : List Recipient) (thr : Int) :
    (processSingleLabel ocrText extractor db thr).status = "error" ↔
      (cleanOcrText ocrText = "" ∨
        ∃ e, extractor (cleanOcrText ocrText) = Except.error e) := by
  unfold processSingleLabel
  dsimp only
  split
  · rename_i hempty
    simp [hempty]
  · rename_i hne
    cases hex : extractor (cleanOcrText ocrText) with
    | error e =>
      simp only [hne, false_or]
      constructor
      · intro _
        exact ⟨e, rfl⟩
      · intro _
        trivial
    | ok pairs =>
      simp only [hne, false_or]
      constructor
      · intro hst
        exfalso
        revert hst
        split
        · intro hst; exact absurd hst (by decide)
        · split
          · intro hst; exact absurd hst (by decide)
          · split
            · intro hst; exact absurd hst (by decide)
            · split
              · intro hst; exact absurd hst (by decide)
              · intro hst; exact absurd hst (by decide)
      · intro hor
        obtain ⟨e, he⟩ := hor
        exact absurd he (by simp)

/-! Char-level facts about `Char.toUpper` and the classifier predicates,
proved from the core definitions. -/

theorem uint32_le_iff (a b : UInt32) : a ≤ b ↔ a.toNat ≤ b.toNat := Iff.rfl

theorem char_toNat_ofNat_valid (n : Nat) (h : n < 55296) : (Char.ofNat n).toNat = n := by
  have hv : n.isValidChar := Or.inl h
  unfold Char.ofNat
  rw [dif_pos hv]
  rfl

theorem char_isDigit_iff (c : Char) : c.isDigit = true ↔ (48 ≤ c.toNat ∧ c.toNat ≤ 57) := by
  unfold Char.isDigit
  simp only [Bool.and_eq_true, decide_eq_true_iff]
  rw [ge_iff_le, uint32_le_iff, uint32_le_iff]
  have h1 : (48 : UInt32).toNat = 48 := rfl
  have h2 : (57 : UInt32).toNat = 57 := rfl
  rw [h1, h2]
  exact Iff.rfl

theorem char_isAlphanum_iff (c : Char) :
    c.isAlphanum = true ↔
      ((65 ≤ c.toNat ∧ c.toNat ≤ 90) ∨ (97 ≤ c.toNat ∧ c.toNat ≤ 122) ∨
        (48 ≤ c.toNat ∧ c.toNat ≤ 57)) := by
  unfold Char.isAlphanum Char.isAlpha Char.isUpper Char.isLower
  simp only [Bool.or_eq_true, Bool.and_eq_true, decide_eq_true_iff]
  rw [char_isDigit_iff]
  rw [ge_iff_le, ge_iff_le, uint32_le_iff, uint32_le_iff, uint32_le_iff, uint32_le_iff]
  have h1 : (65 : UInt32).toNat = 65 := rfl
  have h2 : (90 : UInt32).toNat = 90 := rfl
  have h3 : (97 : UInt32).toNat = 97 := rfl
  have h4 : (122 : UInt32).toNat = 122 := rfl
  rw [h1, h2, h3, h4]
  constructor
  · rintro ((h | h) | h)
    · exact Or.inl h
    · exact Or.inr (Or.inl h)
    · exact Or.inr (Or.inr h)
  · rintro (h | h | h)
    · exact Or.inl (Or.inl h)
    · exact Or.inl (Or.inr h)
    · exact Or.inr h

theorem char_toUpper_of_not_lower (c : Char) (h : ¬ (97 ≤ c.toNat ∧ c.toNat ≤ 122)) :
    c.toUpper = c := by
  unfold Char.toUpper
  dsimp only
  rw [if_neg h]

theorem char_toUpper_toNat_of_lower (c : Char) (h : 97 ≤ c.toNat ∧ c.toNat ≤ 122) :
    c.toUpper.toNat = c.toNat - 32 := by
  unfold Char.toUpper
  dsimp only
  rw [if_pos h]
  exact char_toNat_ofNat_valid _ (by omega)

theorem char_toUpper_of_isDigit (c : Char) (h : c.isDigit = true) : c.toUpper = c := by
  have := (char_isDigit_iff c).mp h
  exact char_toUpper_of_not_lower c (by omega)

theorem char_toUpper_alnum (c : Char) (h : c.isAlphanum = true) :
    c.toUpper.isAlphanum = true ∧ c.toUpper.toUpper = c.toUpper ∧ c.toUpper ≠ ' ' := by
  have hc := (char_isAlphanum_iff c).mp h
  by_cases hl : 97 ≤ c.toNat ∧ c.toNat ≤ 122
  · have ht := char_toUpper_toNat_of_lower c hl
    have hup : c.toUpper.isAlphanum = true :=
      (char_isAlphanum_iff _).mpr (Or.inl (by omega))
    refine ⟨hup, char_toUpper_of_not_lower _ (by omega), ?_⟩
    intro hsp
    have : c.toUpper.toNat = 32 := by rw [hsp]; rfl
    omega
  · rw [char_toUpper_of_not_lower c hl]
    refine ⟨h, char_toUpper_of_not_lower c hl, ?_⟩
    intro hsp
    have : c.toNat = 32 := by rw [hsp]; rfl
    omega

theorem char_not_upsMark_of_isDigit (z : Char) (h : z.isDigit = true) :
    ¬ (z = 'Z' ∨ z = 'z') := by
  have := (char_isDigit_iff z).mp h
  rintro (rfl | rfl) <;> simp_all

theorem takeWhile_eq_self_of_all {p : Char → Bool} :
    ∀ l : List Char, (∀ c ∈ l, p c = true) → l.takeWhile p = l := by
  intro l
  induction l with
  | nil => intro _; rfl
  | cons c rest ih =>
    intro hall
    rw [List.takeWhile_cons, if_pos (hall c (List.mem_cons_self _ _))]
    rw [ih (fun x hx => hall x (List.mem_cons_of_mem _ hx))]

theorem uspsScan_cons_nondigit (c : Char) (rest : List Char) (h : c.isDigit = false) :
    uspsScan (c :: rest) = uspsScan rest := by
  conv_lhs => unfold uspsScan
  rw [if_neg (by simp [h])]

theorem uspsScan_none_of_few : ∀ l : List Char,
    (l.filter Char.isDigit).length < 20 → uspsScan l = none := by
  intro l
  induction l with
  | nil => intro _; rfl
  | cons c rest ih =>
    intro hlt
    have hrest : (rest.filter Char.isDigit).length < 20 := by
      have hsub : List.Sublist (rest.filter Char.isDigit) ((c :: rest).filter Char.isDigit) :=
        List.Sublist.filter _ (List.sublist_cons_self c rest)
      exact Nat.lt_of_le_of_lt hsub.length_le hlt
    by_cases hc : c.isDigit = true
    · unfold uspsScan
      rw [if_pos hc]
      dsimp only
      rw [if_neg]
      · exact ih hrest
      · rintro ⟨h20, -, -⟩
        have hsub2 : List.Sublist (((c :: rest).takeWhile digitSpace).filter Char.isDigit)
            ((c :: rest).filter Char.isDigit) :=
          List.Sublist.filter _ (List.takeWhile_sublist _)
        have := hsub2.length_le
        omega
    · rw [uspsScan_cons_nondigit c rest (by simpa using hc)]
      exact ih hrest

theorem uspsScan_sound : ∀ (l : List Char) (n : String), uspsScan l = some n →
    ∃ ds : List Char, n = String.mk ds ∧ (∀ c ∈ ds, c.isDigit = true) ∧
      20 ≤ ds.length ∧ ds.length ≤ 22 ∧ ds.take 2 = ['9', '4'] := by
  intro l
  induction l with
  | nil => intro n h; exact absurd h (by simp [uspsScan])
  | cons c rest ih =>
    intro n h
    unfold uspsScan at h
    split at h
    · dsimp only at h
      split at h
      · rename_i hcond
        injection h with h
        refine ⟨_, h.symm, ?_, hcond.1, hcond.2.1, hcond.2.2⟩
        intro x hx
        exact (List.mem_filter.mp hx).2
      · exact ih n h
    · exact ih n h

theorem uspsScan_replay (ds : List Char) (hall : ∀ c ∈ ds, c.isDigit = true)
    (h20 : 20 ≤ ds.length) (h22 : ds.length ≤ 22) (h94 : ds.take 2 = ['9', '4']) :
    uspsScan ds = some (String.mk ds) := by
  cases ds with
  | nil => simp at h20
  | cons a ds1 =>
    cases ds1 with
    | nil => simp at h20
    | cons b tl =>
      have h94' := h94
      simp [List.take] at h94'
      obtain ⟨rfl, rfl⟩ := h94'
      unfold uspsScan
      rw [if_pos (by decide : ('9' : Char).isDigit = true)]
      dsimp only
      rw [takeWhile_eq_self_of_all _ (fun c hc => by simp [digitSpace, hall c hc])]
      rw [List.filter_eq_self.mpr hall]
      rw [if_pos ⟨h20, h22, h94⟩]

theorem upsTake_sound : ∀ (ps : List (Char → Bool)) (l body rem : List Char),
    upsTake ps l = some (body, rem) →
    List.Forall₂ (fun p c => p c = true) ps body := by
  intro ps
  induction ps with
  | nil =>
    intro l body rem h
    unfold upsTake at h
    injection h with h
    rw [← (Prod.mk.injEq _ _ _ _).mp h |>.1]
    exact List.Forall₂.nil
  | cons p ps ih =>
    intro l body rem h
    unfold upsTake at h
    split at h
    · exact absurd h (by simp)
    · rename_i c rest heq
      split at h
      · rename_i hp
        split at h
        · exact absurd h (by simp)
        · rename_i b r htk
          injection h with h
          have hbr := (Prod.mk.injEq _ _ _ _).mp h
          rw [← hbr.1]
          exact List.Forall₂.cons hp (ih rest b r htk)
      · exact absurd h (by simp)

theorem upsTake_exact : ∀ (ps : List (Char → Bool)) (body : List Char),
    List.Forall₂ (fun p c => p c = true ∧ c ≠ ' ') ps body →
    upsTake ps body = some (body, []) := by
  intro ps body h
  induction h with
  | nil => rfl
  | cons hpc hrest ih =>
    rename_i p c ps1 body1
    obtain ⟨hp, hne⟩ := hpc
    have hd : (c :: body1).dropWhile (fun x => x == ' ') = c :: body1 := by
      rw [List.dropWhile_cons, if_neg (by simp [hne])]
    conv_lhs => unfold upsTake
    rw [hd]
    dsimp only
    rw [if_pos hp, ih]

theorem upsPattern_mem (p : Char → Bool) (hp : p ∈ upsPattern) :
    p = Char.isAlphanum ∨ p = Char.isDigit := by
  unfold upsPattern at hp
  rcases List.mem_append.mp hp with h | h
  · exact Or.inl (List.eq_of_mem_replicate h)
  · exact Or.inr (List.eq_of_mem_replicate h)

theorem upsBody_transport : ∀ (ps : List (Char → Bool)) (body : List Char),
    (∀ p ∈ ps, p = Char.isAlphanum ∨ p = Char.isDigit) →
    List.Forall₂ (fun p c => p c = true) ps body →
    List.Forall₂ (fun p c => p c = true ∧ c ≠ ' ') ps (body.map Char.toUpper) ∧
      (body.map Char.toUpper).map Char.toUpper = body.map Char.toUpper := by
  intro ps body hmem h
  revert hmem
  induction h with
  | nil => intro _; exact ⟨List.Forall₂.nil, rfl⟩
  | cons hpc hrest ih =>
    rename_i p c ps1 body1
    intro hmem
    have hm := hmem p (List.mem_cons_self _ _)
    obtain ⟨ihf, ihmap⟩ := ih (fun q hq => hmem q (List.mem_cons_of_mem _ hq))
    have halnum : c.isAlphanum = true := by
      rcases hm with rfl | rfl
      · exact hpc
      · have := (char_isDigit_iff c).mp hpc
        exact (char_isAlphanum_iff c).mpr (Or.inr (Or.inr this))
    obtain ⟨hA, hI, hS⟩ := char_toUpper_alnum c halnum
    have hpc2 : p c.toUpper = true := by
      rcases hm with rfl | rfl
      · exact hA
      · rw [char_toUpper_of_isDigit c hpc]; exact hpc
    refine ⟨List.Forall₂.cons ⟨hpc2, hS⟩ ihf, ?_⟩
    simp only [List.map_cons]
    rw [hI, ihmap]

theorem upsScan_step (c z : Char) (rest : List Char) (h : ¬ (c = '1' ∧ (z = 'Z' ∨ z = 'z'))) :
    upsScan (c :: z :: rest) = upsScan (z :: rest) := by
  conv_lhs => unfold upsScan upsTry
  rw [if_neg h]

theorem upsScan_none_of_digits : ∀ (l : List Char), (∀ c ∈ l, c.isDigit = true) →
    ∀ a, upsScan (a :: l) = none := by
  intro l
  induction l with
  | nil => intro _ a; rfl
  | cons z rest ih =>
    intro hall a
    rw [upsScan_step a z rest (by
      rintro ⟨-, hz⟩
      exact char_not_upsMark_of_isDigit z (hall z (List.mem_cons_self _ _)) hz)]
    exact ih (fun c hc => hall c (List.mem_cons_of_mem _ hc)) z

theorem upsScan_sound : ∀ (l : List Char) (n : String), upsScan l = some n →
    ∃ body : List Char, List.Forall₂ (fun p c => p c = true) upsPattern body ∧
      n = String.mk ('1' :: 'Z' :: body.map Char.toUpper) := by
  intro l
  induction l with
  | nil => intro n h; exact absurd h (by simp [upsScan])
  | cons c l ih =>
    intro n h
    cases l with
    | nil => exact absurd h (by simp [upsScan])
    | cons z rest =>
      unfold upsScan at h
      split at h
      · rename_i s htry
        injection h with h
        unfold upsTry at htry
        split at htry
        · split at htry
          · rename_i body1 rem htk
            injection htry with htry
            exact ⟨body1, upsTake_sound upsPattern rest body1 rem htk, by rw [← h, ← htry]⟩
          · exact absurd htry (by simp)
        · exact absurd htry (by simp)
      · exact ih n h

theorem upsScan_replay (body : List Char)
    (hf : List.Forall₂ (fun p c => p c = true) upsPattern body) :
    upsScan ('1' :: 'Z' :: body.map Char.toUpper) =
      some (String.mk ('1' :: 'Z' :: body.map Char.toUpper)) := by
  obtain ⟨hf2, hmap⟩ := upsBody_transport upsPattern body upsPattern_mem hf
  conv_lhs => unfold upsScan upsTry
  rw [if_pos ⟨rfl, Or.inl rfl⟩]
  rw [upsTake_exact upsPattern _ hf2]
  dsimp only
  rw [hmap]

theorem fedexScanAux_step (prev : Option Char) (c : Char) (rest : List Char)
    (h : (c.isDigit && prevNotDigit prev) = false) :
    fedexScanAux prev (c :: rest) = fedexScanAux (some c) rest := by
  conv_lhs => unfold fedexScanAux
  rw [if_neg (by simp [h])]

theorem fedexScanAux_sound : ∀ (l : List Char) (prev : Option Char) (n : String),
    fedexScanAux prev l = some n →
    ∃ run : List Char, n = String.mk run ∧ (∀ c ∈ run, c.isDigit = true) ∧
      12 ≤ run.length ∧ run.length ≤ 14 := by
  intro l
  induction l with
  | nil => intro prev n h; exact absurd h (by simp [fedexScanAux])
  | cons c rest ih =>
    intro prev n h
    unfold fedexScanAux at h
    split at h
    · dsimp only at h
      split at h
      · rename_i hcond
        injection h with h
        exact ⟨_, h.symm, fun x hx => List.mem_takeWhile_imp hx, hcond.1, hcond.2⟩
      · exact ih (some c) n h
    · exact ih (some c) n h

theorem fedexScanAux_replay (run : List Char) (hall : ∀ c ∈ run, c.isDigit = true)
    (h12 : 12 ≤ run.length) (h14 : run.length ≤ 14) :
    fedexScanAux (some ' ') run = some (String.mk run) := by
  cases run with
  | nil => simp at h12
  | cons d rest =>
    have hd : d.isDigit = true := hall d (List.mem_cons_self _ _)
    conv_lhs => unfold fedexScanAux
    rw [if_pos (by simp [hd, prevNotDigit] :
      (d.isDigit && prevNotDigit (some ' ')) = true)]
    dsimp only
    rw [takeWhile_eq_self_of_all _ hall]
    rw [if_pos ⟨h12, h14⟩]

theorem startsWithL_append (pat rest : List Char) : startsWithL pat (pat ++ rest) = true := by
  induction pat with
  | nil => rfl
  | cons p ps ih => simp [startsWithL, ih]

theorem containsSub_of_startsWith (pat l : List Char) (h : startsWithL pat l = true) :
    containsSub pat l = true := by
  cases l with
  | nil => simpa [containsSub] using h
  | cons c cs => simp [containsSub, h]

theorem hasTrackingKeyword_tracking (l : List Char) :
    hasTrackingKeyword ("tracking".data ++ l) = true := by
  unfold hasTrackingKeyword
  rw [List.any_eq_true]
  refine ⟨"tracking".data, by decide, ?_⟩
  exact containsSub_of_startsWith _ _ (startsWithL_append _ _)

theorem uspsScan_tracking_ctx (l : List Char) :
    uspsScan ('t' :: 'r' :: 'a' :: 'c' :: 'k' :: 'i' :: 'n' :: 'g' :: ' '::l) = uspsScan l := by
  rw [uspsScan_cons_nondigit 't' _ (by decide), uspsScan_cons_nondigit 'r' _ (by decide),
    uspsScan_cons_nondigit 'a' _ (by decide), uspsScan_cons_nondigit 'c' _ (by decide),
    uspsScan_cons_nondigit 'k' _ (by decide), uspsScan_cons_nondigit 'i' _ (by decide),
    uspsScan_cons_nondigit 'n' _ (by decide), uspsScan_cons_nondigit 'g' _ (by decide),
    uspsScan_cons_nondigit ' ' _ (by decide)]

theorem uspsScan_tracking_short (l : List Char) (hlen : l.length < 20) :
    uspsScan ('t' :: 'r' :: 'a' :: 'c' :: 'k' :: 'i' :: 'n' :: 'g' :: ' '::l) = none := by
  rw [uspsScan_tracking_ctx]
  exact uspsScan_none_of_few l (Nat.lt_of_le_of_lt (List.length_filter_le _ _) hlen)

theorem upsScan_tracking_ctx (l : List Char) :
    upsScan ('t' :: 'r' :: 'a' :: 'c' :: 'k' :: 'i' :: 'n' :: 'g' :: ' '::l) = upsScan (' ' :: l) := by
  rw [upsScan_step 't' 'r' _ (by decide), upsScan_step 'r' 'a' _ (by decide),
    upsScan_step 'a' 'c' _ (by decide), upsScan_step 'c' 'k' _ (by decide),
    upsScan_step 'k' 'i' _ (by decide), upsScan_step 'i' 'n' _ (by decide),
    upsScan_step 'n' 'g' _ (by decide), upsScan_step 'g' ' ' _ (by decide)]

theorem fedexScan_tracking_ctx (l : List Char) :
    fedexScan ('t' :: 'r' :: 'a' :: 'c' :: 'k' :: 'i' :: 'n' :: 'g' :: ' '::l) = fedexScanAux (some ' ') l := by
  unfold fedexScan
  rw [fedexScanAux_step none 't' _ (by decide), fedexScanAux_step (some 't') 'r' _ (by decide),
    fedexScanAux_step (some 'r') 'a' _ (by decide), fedexScanAux_step (some 'a') 'c' _ (by decide),
    fedexScanAux_step (some 'c') 'k' _ (by decide), fedexScanAux_step (some 'k') 'i' _ (by decide),
    fedexScanAux_step (some 'i') 'n' _ (by decide), fedexScanAux_step (some 'n') 'g' _ (by decide),
    fedexScanAux_step (some 'g') ' ' _ (by decide)]

/-- C10 counterexample: the extractor is not idempotent in the sense that
re-running it on a returned tracking number reproduces that number: a
FedEx-style 12-digit run is accepted when the text contains the keyword
"fedex", but the bare returned number contains no carrier keyword, so a
second extraction on the output alone yields none. -/
theorem claim_C10_counterexample :
    OCR.extractTrackingNumber "fedex 123456789012" = some "123456789012" ∧
    OCR.extractTrackingNumber "123456789012" = none :=
  ⟨by decide, by decide⟩

/-- C10 (amended): every successful extraction comes from exactly one
recognizer of the priority cascade — USPS first, then UPS, then the
keyword-gated FedEx scan — and the extractor is idempotent in context:
re-extracting from the returned number embedded next to a tracking
keyword returns the same number. -/
theorem claim_C10_amended (t n : String) (h : OCR.extractTrackingNumber t = some n) :
    (OCR.uspsScan t.data = some n ∨
      (OCR.uspsScan t.data = none ∧ OCR.upsScan t.data = some n) ∨
      (OCR.uspsScan t.data = none ∧ OCR.upsScan t.data = none ∧
        OCR.hasTrackingKeyword (t.data.map Char.toLower) = true ∧
        OCR.fedexScan t.data = some n)) ∧
    OCR.extractTrackingNumber ("tracking " ++ n) = some n := by
  have hcas : (uspsScan t.data = some n ∨
      (uspsScan t.data = none ∧ upsScan t.data = some n) ∨
      (uspsScan t.data = none ∧ upsScan t.data = none ∧
        hasTrackingKeyword (t.data.map Char.toLower) = true ∧ fedexScan t.data = some n)) := by
    unfold extractTrackingNumber at h
    split at h
    · rename_i m hm
      injection h with h
      subst h
      exact Or.inl hm
    · rename_i hm0
      split at h
      · rename_i m hm
        injection h with h
        subst h
        exact Or.inr (Or.inl ⟨hm0, hm⟩)
      · rename_i hm1
        split at h
        · rename_i hkw
          exact Or.inr (Or.inr ⟨hm0, hm1, hkw, h⟩)
        · exact absurd h (by simp)
  refine ⟨hcas, ?_⟩
  rcases hcas with h1 | ⟨h0, h1⟩ | ⟨h0, h1, hkw, hfed⟩
  · obtain ⟨ds, hn, hall, h20, h22, h94⟩ := uspsScan_sound t.data n h1
    subst hn
    have hdata : ("tracking " ++ String.mk ds).data =
        't' :: 'r' :: 'a' :: 'c' :: 'k' :: 'i' :: 'n' :: 'g' :: ' '::ds := rfl
    unfold extractTrackingNumber
    rw [hdata, uspsScan_tracking_ctx, uspsScan_replay ds hall h20 h22 h94]
  · obtain ⟨body, hf, hn⟩ := upsScan_sound t.data n h1
    subst hn
    have hlb : body.length = 16 := by
      have := List.Forall₂.length_eq hf
      simpa [upsPattern] using this.symm
    have hdata : ("tracking " ++ String.mk ('1' :: 'Z' :: body.map Char.toUpper)).data =
        't' :: 'r' :: 'a' :: 'c' :: 'k' :: 'i' :: 'n' :: 'g' :: ' ' :: '1' :: 'Z'::body.map Char.toUpper := rfl
    unfold extractTrackingNumber
    rw [hdata]
    rw [uspsScan_tracking_short _ (by
      simp only [List.length_cons, List.length_map, hlb]
      omega)]
    rw [upsScan_tracking_ctx, upsScan_step ' ' '1' _ (by decide), upsScan_replay body hf]
  · obtain ⟨run, hn, hall, h12, h14⟩ := fedexScanAux_sound t.data none n hfed
    subst hn
    have hdata : ("tracking " ++ String.mk run).data =
        't' :: 'r' :: 'a' :: 'c' :: 'k' :: 'i' :: 'n' :: 'g' :: ' '::run := rfl
    unfold extractTrackingNumber
    rw [hdata]
    rw [uspsScan_tracking_short _ (by omega)]
    rw [upsScan_tracking_ctx, upsScan_none_of_digits run hall ' ']
    have hmap : ('t' :: 'r' :: 'a' :: 'c' :: 'k' :: 'i' :: 'n' :: 'g' :: ' '::run).map Char.toLower =
        't' :: 'r' :: 'a' :: 'c' :: 'k' :: 'i' :: 'n' :: 'g' :: ' '::(run.map Char.toLower) := by
      simp only [List.map_cons]
      rfl
    rw [hmap]
    have hkw2 : hasTrackingKeyword
        ('t' :: 'r' :: 'a' :: 'c' :: 'k' :: 'i' :: 'n' :: 'g' :: ' '::(run.map Char.toLower)) = true :=
      hasTrackingKeyword_tracking (' ' :: run.map Char.toLower)
    rw [if_pos hkw2]
    rw [fedexScan_tracking_ctx, fedexScanAux_replay run hall h12 h14]

/-- C10 witness: the amended theorem instantiated at the FedEx-style
input "fedex 123456789012". -/
theorem claim_C10_witness :
    (OCR.uspsScan ("fedex 123456789012").data = some "123456789012" ∨
      (OCR.uspsScan ("fedex 123456789012").data = none ∧
        OCR.upsScan ("fedex 123456789012").data = some "123456789012") ∨
      (OCR.uspsScan ("fedex 123456789012").data = none ∧
        OCR.upsScan ("fedex 123456789012").data = none ∧
        OCR.hasTrackingKeyword (("fedex 123456789012").data.map Char.toLower) = true ∧
        OCR.fedexScan ("fedex 123456789012").data = some "123456789012")) ∧
    OCR.extractTrackingNumber ("tracking " ++ "123456789012") = some "123456789012" :=
  OCR.claim_C10_amended "fedex 123456789012" "123456789012" (by decide)

/-- C4: on the Scenario B input the rule-based extractor returns the name
"Zoey Dong" together with the raw matched span "2821 carradale dr,
95661-4047 roseville, ca". The zip-before-city segments are not reparsed
and reordered: simple pattern 3 (rule_extractor.py line 77) already
supplies the raw span as the address, and the reordering special case
(lines 450-462) is guarded by the name being absent, so it never runs
once the name "Zoey Dong" has been found. The returned address therefore
differs from the reordered address the spec states. -/
theorem claim_C4 :
    extract_name_address_rule_based
        "zoey dong 2821 carradale dr, 95661-4047 roseville, ca" =
      [⟨"Zoey Dong", "2821 carradale dr, 95661-4047 roseville, ca"⟩] ∧
    ([⟨"Zoey Dong", "2821 carradale dr, 95661-4047 roseville, ca"⟩] : List Pair) ≠
      [⟨"Zoey Dong", "2821 carradale dr, Roseville, CA 95661-4047"⟩] :=
  ⟨by decide, by decide⟩

end OCR
